import Mathlib

/-!
# kole: the shell configuration reformatter (`formatter.go`)

A shallow embedding of the classifier (`parseShellConfig`), the canonical
formatter (`formatShellConfig`) and the line colorizer (`highlightSyntax`).

Modelling conventions.

* A Go `string` is modelled by `Str`, the list of its runes (the file is taken to be valid
  UTF-8, where byte-wise lexicographic order and rune-wise lexicographic order coincide).
* File access is outside the model: `parseShellConfig` takes the path and the contents of a
  file that opens and whose reads succeed.  The scanner is modelled with its limit on the size
  of a line, so `parseShellConfig` returns, as in Go, the record built so far together with
  the error of the scanner (`ErrTooLong` or none).
* The compiled regular expressions are written as greedy scanners built from `lit`, `one`,
  `many` and `many1`.  In every pattern of `formatter.go` a repetition is followed by a
  character outside the repeated class (or ends the pattern), and the two branches of an
  alternation start with different characters, so greedy scanning without backtracking finds
  exactly the leftmost-first match of Go's `regexp`.
* `lipgloss.Style.Render` is a library call; it is modelled as on a true-colour terminal, for
  text without line feed: each tab is replaced by four spaces and the result is put between
  the SGR sequence of the style and the reset sequence.
* The plain-text view of the specification is `stripStyling`, the removal of SGR sequences.
-/

namespace Kole

/-- A Go string, as the list of its runes. -/
abbrev Str := List Char

/-- The escape character U+001B. -/
def ESC : Char := Char.ofNat 27

/-- The double quote U+0022. -/
def dquote : Char := Char.ofNat 34

/-- The single quote U+0027. -/
def squote : Char := Char.ofNat 39

/-- The line feed U+000A. -/
def LF : Char := Char.ofNat 10

/-- The carriage return U+000D. -/
def CR : Char := Char.ofNat 13

/-- The horizontal tab U+0009. -/
def TAB : Char := Char.ofNat 9

/-! ## Go standard library -/

/-- Go `unicode.IsSpace`: the Latin-1 spaces and the Unicode `White_Space` property. -/
def isSpace (c : Char) : Bool :=
  let n := c.toNat
  n == 9 || n == 10 || n == 11 || n == 12 || n == 13 || n == 32 || n == 0x85 || n == 0xA0 ||
  n == 0x1680 || (0x2000 ≤ n && n ≤ 0x200A) || n == 0x2028 || n == 0x2029 || n == 0x202F ||
  n == 0x205F || n == 0x3000

/-- Go `strings.TrimSpace`: drop leading and trailing white space. -/
def TrimSpace (s : Str) : Str :=
  (s.dropWhile isSpace).rdropWhile isSpace

/-- Go `strings.HasPrefix`. -/
def HasPrefix (s p : Str) : Bool := p.isPrefixOf s

/-- Go `strings.HasSuffix`. -/
def HasSuffix (s p : Str) : Bool := p.isSuffixOf s

/-- Go `strings.Join`. -/
def Join (lines : List Str) (sep : Str) : Str := sep.intercalate lines

/-- Lexicographic comparison of two strings, rune by rune (Go `a <= b` on strings). -/
def strLe : Str → Str → Bool
  | [], _ => true
  | _ :: _, [] => false
  | a :: as, b :: bs =>
    if a.toNat < b.toNat then true else if a.toNat = b.toNat then strLe as bs else false

/-- Go `sort.Strings`: the ascending rearrangement of the list.  The order is total and
antisymmetric, so the sorted rearrangement is unique and the sorting algorithm is immaterial. -/
def sortStrings (l : List Str) : List Str :=
  l.insertionSort (fun a b => strLe a b = true)

/-- The number of bytes of a rune in UTF-8. -/
def runeLen (c : Char) : Nat :=
  if c.toNat < 0x80 then 1 else if c.toNat < 0x800 then 2 else if c.toNat < 0x10000 then 3
  else 4

/-- The number of bytes of a string (Go `len`). -/
def byteLen (s : Str) : Nat := (s.map runeLen).sum

/-- Go `bufio.MaxScanTokenSize`, the size that the buffer of a `bufio.Scanner` grows to. -/
def MaxScanTokenSize : Nat := 64 * 1024

/-- The error of a `bufio.Scanner` on a file whose reads succeed. -/
inductive ScanError where
  /-- Go `bufio.ErrTooLong`. -/
  | ErrTooLong
  deriving DecidableEq

/-- Go `bufio.ScanLines`, `dropCR`: a trailing carriage return is not part of the line. -/
def dropCR (s : Str) : Str :=
  if s.getLast? = some CR then s.dropLast else s

/-- The physical lines of a file as `bufio.ScanLines` cuts them, before `dropCR`: the pieces
between line feeds; an empty piece after the last line feed is no line. -/
def rawLines (content : Str) : List Str :=
  let pieces := content.splitOn LF
  if pieces.getLast? = some [] then pieces.dropLast else pieces

/-- A line that the buffer of the scanner cannot hold: the scanner finds no line feed in a
full buffer of `MaxScanTokenSize` bytes and gives up. -/
def tooLong (piece : Str) : Bool := decide (MaxScanTokenSize ≤ byteLen piece)

/-- The run of `bufio.Scanner` with `ScanLines` over the given contents: the tokens that
`scanner.Text()` yields, which are the lines before the first one that is too long, without
their trailing carriage return, and `scanner.Err()`. -/
def scanTokens (content : Str) : List Str × Option ScanError :=
  (((rawLines content).takeWhile (fun p => !tooLong p)).map dropCR,
    if (rawLines content).all (fun p => !tooLong p) then none else some ScanError.ErrTooLong)

/-! ## Regular expressions of `formatter.go` -/

/-- The class `\s` of Go `regexp`: `[\t\n\f\r ]`. -/
def reSpace (c : Char) : Bool :=
  c.toNat == 9 || c.toNat == 10 || c.toNat == 12 || c.toNat == 13 || c.toNat == 32

/-- The class `\w` of Go `regexp`: `[0-9A-Za-z_]`. -/
def reWord (c : Char) : Bool :=
  let n := c.toNat
  (48 ≤ n && n ≤ 57) || (65 ≤ n && n ≤ 90) || (97 ≤ n && n ≤ 122) || n == 95

/-- The class `[A-Z_]`. -/
def reUpper (c : Char) : Bool :=
  let n := c.toNat
  (65 ≤ n && n ≤ 90) || n == 95

/-- The class `[A-Z0-9_]`. -/
def reUpperDigit (c : Char) : Bool :=
  let n := c.toNat
  (65 ≤ n && n ≤ 90) || (48 ≤ n && n ≤ 57) || n == 95

/-- The class `[^"]`. -/
def reNotDquote (c : Char) : Bool := !(c == dquote)

/-- The class `[^']`. -/
def reNotSquote (c : Char) : Bool := !(c == squote)

/-- The class `[^"'\s]`. -/
def rePathChar (c : Char) : Bool := !(c == dquote || c == squote || reSpace c)

/-- Match a literal at the start of the input; the result is the input after it. -/
def lit (p : Str) (s : Str) : Option Str :=
  if p.isPrefixOf s then some (s.drop p.length) else none

/-- Match one character of a class. -/
def one (cls : Char → Bool) : Str → Option Str
  | [] => none
  | c :: cs => if cls c then some cs else none

/-- Match `cls*` greedily. -/
def many (cls : Char → Bool) (s : Str) : Option Str := some (s.dropWhile cls)

/-- Match `cls+` greedily. -/
def many1 (cls : Char → Bool) (s : Str) : Option Str :=
  (one cls s).bind (many cls)

/-- The pattern `^export\s+(\w+)=`, as `MatchString` uses it. -/
def exportPattern (line : Str) : Bool :=
  ((((lit "export".toList line).bind (many1 reSpace)).bind (many1 reWord)).bind
    (lit "=".toList)).isSome

/-- The pattern `^alias\s+(\w+)=`. -/
def aliasPattern (line : Str) : Bool :=
  ((((lit "alias".toList line).bind (many1 reSpace)).bind (many1 reWord)).bind
    (lit "=".toList)).isSome

/-- The pattern `^(\w+)\s*\(\)\s*\{`. -/
def functionPattern (line : Str) : Bool :=
  (((((many1 reWord line).bind (many reSpace)).bind (lit "()".toList)).bind
    (many reSpace)).bind (lit "\x7b".toList)).isSome

/-- The pattern `^#`. -/
def commentPattern (line : Str) : Bool := (lit "#".toList line).isSome

/-- The pattern `"[^"]*"|'[^']*'` at the start of the input: the input after the match. -/
def quotedPattern (s : Str) : Option Str :=
  (((lit [dquote] s).bind (many reNotDquote)).bind (lit [dquote])).orElse fun _ =>
  (((lit [squote] s).bind (many reNotSquote)).bind (lit [squote]))

/-- The pattern `\$[A-Z_][A-Z0-9_]*|/[^"'\s]+` at the start of the input: the input after
the match. -/
def pathPattern (s : Str) : Option Str :=
  (((lit "$".toList s).bind (one reUpper)).bind (many reUpperDigit)).orElse fun _ =>
  ((lit "/".toList s).bind (many1 rePathChar))

/-- The loop of Go `Regexp.ReplaceAllStringFunc`, on a pattern that matches no empty string:
at each position, the leftmost-first match (if any) is replaced by `repl` of it and the scan
resumes after the match; otherwise the character is copied.  `fuel` bounds the number of
steps; the length of the input is always enough. -/
def replaceAll (re : Str → Option Str) (repl : Str → Str) : Nat → Str → Str
  | 0, s => s
  | _ + 1, [] => []
  | fuel + 1, c :: cs =>
    match re (c :: cs) with
    | some rest =>
      if rest.length ≤ cs.length then
        repl ((c :: cs).take ((c :: cs).length - rest.length)) ++ replaceAll re repl fuel rest
      else c :: replaceAll re repl fuel cs
    | none => c :: replaceAll re repl fuel cs

/-- Go `Regexp.ReplaceAllStringFunc`. -/
def ReplaceAllStringFunc (re : Str → Option Str) (src : Str) (repl : Str → Str) : Str :=
  replaceAll re repl src.length src

/-- The matches that `ReplaceAllStringFunc` hands to its callback, in order. -/
def findAll (re : Str → Option Str) : Nat → Str → List Str
  | 0, _ => []
  | _ + 1, [] => []
  | fuel + 1, c :: cs =>
    match re (c :: cs) with
    | some rest =>
      if rest.length ≤ cs.length then
        (c :: cs).take ((c :: cs).length - rest.length) :: findAll re fuel rest
      else findAll re fuel cs
    | none => findAll re fuel cs

/-! ## lipgloss styles -/

/-- A lipgloss style with text attributes only, given by the parameters of the SGR sequence
that selects it. -/
structure Style where
  /-- The parameters of the opening sequence. -/
  sgr : Str

/-- Modelled from the spec: the tab conversion inside `lipgloss.Style.Render`, an external
library that is missing from the sources; with the tab width of the library, 4, which
`formatter.go` does not change, each tab becomes four spaces. -/
def expandTabs : Str → Str
  | [] => []
  | c :: cs => if c = TAB then ' ' :: ' ' :: ' ' :: ' ' :: expandTabs cs else c :: expandTabs cs

/-- Modelled from the spec: `lipgloss.Style.Render` belongs to an external library and is
missing from the sources; the colorizer "wraps" text in a style.  The model is that of a style
with text attributes only, on a true-colour terminal, for text without line feed: the library
replaces each tab by four spaces and puts the result between `ESC [ sgr m` and the reset
sequence `ESC [ 0 m`.  Text with a line feed, which the library styles line by line and pads
to lines of equal width, never comes from a scanned line and is outside the model: a
statement of how an arbitrary line reads after highlighting assumes that the line has no line
feed. -/
def Style.Render (st : Style) (s : Str) : Str :=
  [ESC, '['] ++ st.sgr ++ ['m'] ++ expandTabs s ++ [ESC, '[', '0', 'm']

/-- Bold, foreground `#FF79C6`. -/
def keywordStyle : Style := ⟨"1;38;2;255;121;198".toList⟩

/-- Foreground `#50FA7B`. -/
def stringStyle : Style := ⟨"38;2;80;250;123".toList⟩

/-- Foreground `#8BE9FD`. -/
def pathStyle : Style := ⟨"38;2;139;233;253".toList⟩

/-- Foreground `#6272A4`. -/
def commentStyle : Style := ⟨"38;2;98;114;164".toList⟩

/-! ## `highlightSyntax` -/

/-- The keywords of `highlightSyntax`, in the order they are tried. -/
def keywords : List Str := ["export".toList, "alias".toList, "function".toList]

/-- The keyword loop of `highlightSyntax`: the first keyword that is a prefix of the line is
rendered in the keyword style, and the loop ends. -/
def styleKeyword : List Str → Str → Str
  | [], line => line
  | kw :: kws, line =>
    if HasPrefix line kw then keywordStyle.Render kw ++ line.drop kw.length
    else styleKeyword kws line

/-- The function `highlightSyntax` of `formatter.go`. -/
def highlightSyntax (line : Str) : Str :=
  let line := styleKeyword keywords line
  if HasPrefix line "#".toList then commentStyle.Render line
  else
    let line := ReplaceAllStringFunc quotedPattern line (fun s => stringStyle.Render s)
    let line := ReplaceAllStringFunc pathPattern line (fun s => pathStyle.Render s)
    line

/-! ## `parseShellConfig` -/

/-- The record `ShellConfig` of `formatter.go`. -/
structure ShellConfig where
  FilePath : Str
  FileType : Str
  Lines : List Str
  Exports : List Str
  Aliases : List Str
  Functions : List Str
  Comments : List Str
  Others : List Str
  deriving DecidableEq

/-- The function `detectFileType` of `formatter.go`. -/
def detectFileType (path : Str) : Str :=
  if HasSuffix path ".bashrc".toList then "bash".toList
  else if HasSuffix path ".zshrc".toList then "zsh".toList
  else "unknown".toList

/-- The body of the scanner loop of `parseShellConfig`, for one scanned line. -/
def classifyLine (config : ShellConfig) (text : Str) : ShellConfig :=
  let line := TrimSpace text
  if line = [] then config
  else if exportPattern line then { config with Exports := config.Exports ++ [line] }
  else if aliasPattern line then { config with Aliases := config.Aliases ++ [line] }
  else if functionPattern line then { config with Functions := config.Functions ++ [line] }
  else if commentPattern line then { config with Comments := config.Comments ++ [line] }
  else { config with Others := config.Others ++ [line] }

/-- The function `parseShellConfig` of `formatter.go`, on a file that opens and whose reads
succeed: `content` is what the file holds.  As in Go, the result is the record filled from the
scanned lines together with `scanner.Err()`. -/
def parseShellConfig (path content : Str) : ShellConfig × Option ScanError :=
  ((scanTokens content).1.foldl classifyLine
      { FilePath := path, FileType := detectFileType path, Lines := [], Exports := [],
        Aliases := [], Functions := [], Comments := [], Others := [] },
    (scanTokens content).2)

/-! ## `formatShellConfig` -/

/-- The slice `lines` that `formatShellConfig` builds before joining it. -/
def formatLines (config : ShellConfig) : List Str :=
  let lines : List Str := []
  let lines := lines ++ [highlightSyntax "# Comments".toList]
  let lines := lines ++ config.Comments.map highlightSyntax
  let lines :=
    if config.Comments.length > 0 ∧
        (config.Exports.length > 0 ∨ config.Aliases.length > 0 ∨ config.Functions.length > 0)
    then lines ++ [[]] else lines
  let lines := lines ++ [highlightSyntax "# Exports".toList]
  let lines := lines ++ (sortStrings config.Exports).map highlightSyntax
  let lines :=
    if config.Exports.length > 0 ∧ (config.Aliases.length > 0 ∨ config.Functions.length > 0)
    then lines ++ [[]] else lines
  let lines := lines ++ [highlightSyntax "# Aliases".toList]
  let lines := lines ++ (sortStrings config.Aliases).map highlightSyntax
  let lines :=
    if config.Aliases.length > 0 ∧ config.Functions.length > 0
    then lines ++ [[]] else lines
  let lines := lines ++ [highlightSyntax "# Functions".toList]
  let lines := lines ++ (sortStrings config.Functions).map highlightSyntax
  if config.Others.length > 0 then
    let lines := if lines.length > 0 then lines ++ [[]] else lines
    let lines := lines ++ [highlightSyntax "# Other".toList]
    lines ++ config.Others.map highlightSyntax
  else lines

/-- The function `formatShellConfig` of `formatter.go`. -/
def formatShellConfig (config : ShellConfig) : Str :=
  Join (formatLines config) [LF]

/-! ## The plain-text view -/

/-- A parameter character of an SGR sequence: a digit or a semicolon. -/
def isParam (c : Char) : Bool := (48 ≤ c.toNat && c.toNat ≤ 57) || c.toNat == 59

/-- After `ESC [`: the parameters and the final `m` of an SGR sequence, if they stand at the
start of the input; the result is the input after the sequence. -/
def sgrParams : Str → Option Str
  | [] => none
  | c :: cs => if c = 'm' then some cs else if isParam c then sgrParams cs else none

/-- After `ESC`: the rest `[ params m` of an SGR sequence, if it stands at the start of the
input. -/
def sgrTail : Str → Option Str
  | [] => none
  | c :: cs => if c = '[' then sgrParams cs else none

/-- Removal of the styling escape sequences `ESC [ params m`, scanning from the left.  `fuel`
bounds the number of steps; the length of the input is always enough. -/
def stripAux : Nat → Str → Str
  | 0, s => s
  | _ + 1, [] => []
  | fuel + 1, c :: cs =>
    if c = ESC then
      match sgrTail cs with
      | some rest => stripAux fuel rest
      | none => c :: stripAux fuel cs
    else c :: stripAux fuel cs

/-- The plain-text view of a string: its styling escape sequences are removed. -/
def stripStyling (s : Str) : Str := stripAux s.length s

/-- The lines of the plain-text view of an output. -/
def plainLines (out : Str) : List Str := (stripStyling out).splitOn LF


/-! ## Notions of the specification -/

/-- The physical lines of a file, without their trailing carriage return. -/
def physicalLines (content : Str) : List Str := (rawLines content).map dropCR

/-- The non-empty trimmed lines of a file, in file order. -/
def nonEmptyTrimmed (content : Str) : List Str :=
  ((physicalLines content).map TrimSpace).filter (fun l => l ≠ [])

/-- The lines that the loop of `parseShellConfig` classifies: the tokens that the scanner
yields (the lines before the first one that is too long), trimmed, without the empty ones. -/
def scannedTrimmed (content : Str) : List Str :=
  (((scanTokens content).1).map TrimSpace).filter (fun l => l ≠ [])

/-- A line that matches none of the four classification patterns. -/
def otherLine (line : Str) : Bool :=
  !exportPattern line && !aliasPattern line && !functionPattern line && !commentPattern line

/-- The string contains a styling escape sequence `ESC [ params m`. -/
def hasStyling : Str → Bool
  | [] => false
  | c :: cs => (c == ESC && (sgrTail cs).isSome) || hasStyling cs

/-- A blank line: empty, or white space only. -/
def isBlank (l : Str) : Bool := l.all isSpace

/-- The line with the tabs replaced that the colorizer hands to `Render`: all tabs of a
comment line, and the tabs inside the quoted strings of another line. -/
def tabsExpanded (line : Str) : Str :=
  if HasPrefix line "#".toList then expandTabs line
  else ReplaceAllStringFunc quotedPattern line expandTabs

/-- The line as it reads in the plain-text view of the output: its tabs in a comment or in a
quoted string are four spaces each, and its styling escape sequences are gone. -/
def plainOf (line : Str) : Str := stripStyling (tabsExpanded line)

/-- The five sections put together: the four headers with their sections, a blank separator
after a non-empty section that is followed by a non-empty one among the first four, and the
`# Other` section, after a blank line, if there are other lines. -/
def assemble (comments exports aliases functions others : List Str) : List Str :=
  ["# Comments".toList] ++ comments ++
  (if comments ≠ [] ∧ (exports ≠ [] ∨ aliases ≠ [] ∨ functions ≠ []) then [[]] else []) ++
  ["# Exports".toList] ++ exports ++
  (if exports ≠ [] ∧ (aliases ≠ [] ∨ functions ≠ []) then [[]] else []) ++
  ["# Aliases".toList] ++ aliases ++
  (if aliases ≠ [] ∧ functions ≠ [] then [[]] else []) ++
  ["# Functions".toList] ++ functions ++
  (if others ≠ [] then [] :: "# Other".toList :: others else [])

/-- The lines of the formatted output as they are meant to read: the sections of the record
put together, with exports, aliases and functions sorted. -/
def layout (config : ShellConfig) : List Str :=
  assemble config.Comments (sortStrings config.Exports) (sortStrings config.Aliases)
    (sortStrings config.Functions) config.Others

/-- The header lines that the formatter synthesizes for a record. -/
def headerLines (config : ShellConfig) : List Str :=
  ["# Comments".toList, "# Exports".toList, "# Aliases".toList, "# Functions".toList] ++
    (if config.Others ≠ [] then ["# Other".toList] else [])

/-- The line as the path rule of `highlightSyntax` receives it, after the keyword rule and the
quoted-string rule (for a line that is no comment). -/
def quotedStage (line : Str) : Str :=
  ReplaceAllStringFunc quotedPattern (styleKeyword keywords line) (fun s => stringStyle.Render s)

/-- The substrings that the path rule of `highlightSyntax` wraps in the path style. -/
def pathMatches (line : Str) : List Str :=
  findAll pathPattern (quotedStage line).length (quotedStage line)

/-- The record that classifying the plain-text output of a record gives: the header lines of
the first pass have joined the comments, and the three sorted buckets stay sorted. -/
def reclassified (config : ShellConfig) : ShellConfig :=
  { config with
    Comments := ["# Comments".toList] ++ config.Comments ++
      ["# Exports".toList, "# Aliases".toList, "# Functions".toList] ++
      (if config.Others ≠ [] then ["# Other".toList] else [])
    Exports := sortStrings config.Exports
    Aliases := sortStrings config.Aliases
    Functions := sortStrings config.Functions }

/-- A file whose second line has `MaxScanTokenSize` bytes. -/
def longFile : Str :=
  "# first\n".toList ++ List.replicate MaxScanTokenSize 'x' ++ "\n# last\n".toList

/-! ## Auxiliary notions of the proofs -/

/-- The text between the opening sequence of a style and the reset sequence. -/
def Style.wrap (st : Style) (s : Str) : Str :=
  [ESC, '['] ++ st.sgr ++ ['m'] ++ s ++ [ESC, '[', '0', 'm']

/-- The second string is the first with some of its tabs replaced by four spaces. -/
inductive TabExp : Str → Str → Prop where
  | nil : TabExp [] []
  | keep (c : Char) {s t : Str} : TabExp s t → TabExp (c :: s) (c :: t)
  | expand {s t : Str} : TabExp s t → TabExp (TAB :: s) (' ' :: ' ' :: ' ' :: ' ' :: t)

/-- The string is empty or starts with a character that cannot continue an unfinished escape
sequence (it is not `[`, not a parameter character and not `m`). -/
def safeStart : Str → Bool
  | [] => true
  | c :: _ => !(c == '[' || c == 'm' || isParam c)

/-- A pattern whose matches begin and end where no escape sequence is cut: a match is a
prefix of the input, it starts with a character that continues no escape sequence, and the
plain-text view splits at its end. -/
def CleanCut (re : Str → Option Str) : Prop :=
  ∀ s rest, re s = some rest → ∃ m, s = m ++ rest ∧ safeStart s = true ∧
    stripStyling (m ++ rest) = stripStyling m ++ stripStyling rest

/-- The characters of the escape sequences that open and close a style. -/
def styleChars (st : Style) : Str := ESC :: '[' :: 'm' :: '0' :: ' ' :: st.sgr

/-- No blank line at either end and no two blank lines in a row, checked from the left:
`prev` tells whether the line before the list is blank (or is the start of the output). -/
def okFrom : Bool → List Str → Bool
  | prev, [] => !prev
  | prev, l :: ls => !(prev && isBlank l) && okFrom (isBlank l) ls

/-- The layout without its blank separator lines. -/
def contentLines (config : ShellConfig) : List Str :=
  ["# Comments".toList] ++ config.Comments ++
  ["# Exports".toList] ++ sortStrings config.Exports ++
  ["# Aliases".toList] ++ sortStrings config.Aliases ++
  ["# Functions".toList] ++ sortStrings config.Functions ++
  (if config.Others ≠ [] then "# Other".toList :: config.Others else [])

/-- The number of the first switch case of `parseShellConfig` that a line falls in: 0 export,
1 alias, 2 function header, 3 comment, 4 other. -/
def kind (line : Str) : Nat :=
  if exportPattern line then 0
  else if aliasPattern line then 1
  else if functionPattern line then 2
  else if commentPattern line then 3
  else 4


/-! ## Scanner lemmas -/

theorem lit_eq_some {p s r : Str} (h : lit p s = some r) : s = p ++ r := by
  unfold lit at h
  split at h
  · rename_i hp
    injection h with h
    subst h
    have := List.isPrefixOf_iff_prefix.mp hp
    obtain ⟨t, rfl⟩ := this
    simp
  · cases h

theorem one_eq_some {cls : Char → Bool} {s r : Str} (h : one cls s = some r) :
    ∃ c, s = c :: r ∧ cls c = true := by
  cases s with
  | nil => cases h
  | cons c cs =>
    simp only [one] at h
    split_ifs at h with hc
    injection h with h
    exact ⟨c, by rw [h], hc⟩

theorem many1_eq_some {cls : Char → Bool} {s r : Str} (h : many1 cls s = some r) :
    ∃ c t, s = c :: t ∧ cls c = true ∧ r = t.dropWhile cls := by
  simp only [many1, Option.bind_eq_some, many, Option.some.injEq] at h
  obtain ⟨t, h1, rfl⟩ := h
  obtain ⟨c, rfl, hc⟩ := one_eq_some h1
  exact ⟨c, t, rfl, hc, rfl⟩

theorem exportPattern_shape {line : Str} (h : exportPattern line = true) :
    ∃ c t d u, line = "export".toList ++ c :: t ∧ reSpace c = true ∧
      t.dropWhile reSpace = d :: u ∧ reWord d = true := by
  simp only [exportPattern, Option.isSome_iff_exists, Option.bind_eq_some] at h
  obtain ⟨_, r3, ⟨r2, ⟨r1, h1, h2⟩, h3⟩, _⟩ := h
  obtain ⟨c, t, rfl, hc, rfl⟩ := many1_eq_some h2
  obtain ⟨d, u, hd, hd', -⟩ := many1_eq_some h3
  exact ⟨c, t, d, u, lit_eq_some h1, hc, hd, hd'⟩

theorem aliasPattern_shape {line : Str} (h : aliasPattern line = true) :
    ∃ c t d u, line = "alias".toList ++ c :: t ∧ reSpace c = true ∧
      t.dropWhile reSpace = d :: u ∧ reWord d = true := by
  simp only [aliasPattern, Option.isSome_iff_exists, Option.bind_eq_some] at h
  obtain ⟨_, r3, ⟨r2, ⟨r1, h1, h2⟩, h3⟩, _⟩ := h
  obtain ⟨c, t, rfl, hc, rfl⟩ := many1_eq_some h2
  obtain ⟨d, u, hd, hd', -⟩ := many1_eq_some h3
  exact ⟨c, t, d, u, lit_eq_some h1, hc, hd, hd'⟩

theorem commentPattern_shape {line : Str} (h : commentPattern line = true) :
    ∃ t, line = '#' :: t := by
  simp only [commentPattern, Option.isSome_iff_exists] at h
  obtain ⟨r, h1⟩ := h
  exact ⟨r, lit_eq_some h1⟩

theorem reSpace_not_reWord {c : Char} (h : reSpace c = true) : reWord c = false := by
  simp only [reSpace, reWord, Bool.or_eq_true, beq_iff_eq, Bool.and_eq_true, decide_eq_true_eq,
    Bool.or_eq_false_iff, Bool.and_eq_false_imp, beq_eq_false_iff_ne] at *
  omega

theorem functionPattern_after_word (w : Str) (hw : ∀ x ∈ w, reWord x = true) (hne : w ≠ [])
    (c : Char) (t : Str) (hc : reSpace c = true) (d : Char) (u : Str)
    (ht : t.dropWhile reSpace = d :: u) (hd : reWord d = true) :
    functionPattern (w ++ c :: t) = false := by
  cases w with
  | nil => exact absurd rfl hne
  | cons a w =>
    have ha : reWord a = true := hw a (by simp)
    have hw' : ∀ x ∈ w, reWord x = true := fun x hx => hw x (by simp [hx])
    have hdw : (w ++ c :: t).dropWhile reWord = c :: t := by
      rw [List.dropWhile_append_of_pos hw']
      simp [List.dropWhile, reSpace_not_reWord hc]
    have hd' : ¬ ('(' = d) := by
      intro h; subst h; revert hd; decide
    simp [functionPattern, many1, one, ha, many, hdw, List.dropWhile, hc, ht, lit, hd']

/-! ## Mutual exclusion of the classification patterns -/

theorem export_not_alias {line : Str} (h : exportPattern line = true) :
    aliasPattern line = false := by
  obtain ⟨c, t, d, u, rfl, -⟩ := exportPattern_shape h
  simp [aliasPattern, lit]

theorem export_not_function {line : Str} (h : exportPattern line = true) :
    functionPattern line = false := by
  obtain ⟨c, t, d, u, rfl, hc, ht, hd⟩ := exportPattern_shape h
  exact functionPattern_after_word _ (by decide) (by decide) c t hc d u ht hd

theorem alias_not_function {line : Str} (h : aliasPattern line = true) :
    functionPattern line = false := by
  obtain ⟨c, t, d, u, rfl, hc, ht, hd⟩ := aliasPattern_shape h
  exact functionPattern_after_word _ (by decide) (by decide) c t hc d u ht hd

theorem comment_not_export {line : Str} (h : commentPattern line = true) :
    exportPattern line = false := by
  obtain ⟨t, rfl⟩ := commentPattern_shape h
  simp [exportPattern, lit]

theorem comment_not_alias {line : Str} (h : commentPattern line = true) :
    aliasPattern line = false := by
  obtain ⟨t, rfl⟩ := commentPattern_shape h
  simp [aliasPattern, lit]

theorem comment_not_function {line : Str} (h : commentPattern line = true) :
    functionPattern line = false := by
  obtain ⟨t, rfl⟩ := commentPattern_shape h
  simp [functionPattern, many1, one, reWord]

theorem export_not_comment {line : Str} (h : exportPattern line = true) :
    commentPattern line = false := by
  cases hc : commentPattern line with
  | false => rfl
  | true => have := comment_not_export hc; simp [h] at this

theorem alias_not_comment {line : Str} (h : aliasPattern line = true) :
    commentPattern line = false := by
  cases hc : commentPattern line with
  | false => rfl
  | true => have := comment_not_alias hc; simp [h] at this

theorem function_not_comment {line : Str} (h : functionPattern line = true) :
    commentPattern line = false := by
  cases hc : commentPattern line with
  | false => rfl
  | true => have := comment_not_function hc; simp [h] at this

/-- C10. The four classification patterns of `parseShellConfig` are pairwise mutually
exclusive: no line matches two of them.  Hence the bucket that the loop body appends a line to
is determined by which pattern the line matches, whatever the order of the switch cases. -/
theorem classification_patterns_exclusive (line : Str) :
    ¬ (exportPattern line = true ∧ aliasPattern line = true) ∧
    ¬ (exportPattern line = true ∧ functionPattern line = true) ∧
    ¬ (exportPattern line = true ∧ commentPattern line = true) ∧
    ¬ (aliasPattern line = true ∧ functionPattern line = true) ∧
    ¬ (aliasPattern line = true ∧ commentPattern line = true) ∧
    ¬ (functionPattern line = true ∧ commentPattern line = true) ∧
    (∀ config : ShellConfig, TrimSpace line ≠ [] →
      (classifyLine config line).Exports =
        (if exportPattern (TrimSpace line) then config.Exports ++ [TrimSpace line]
          else config.Exports) ∧
      (classifyLine config line).Aliases =
        (if aliasPattern (TrimSpace line) then config.Aliases ++ [TrimSpace line]
          else config.Aliases) ∧
      (classifyLine config line).Functions =
        (if functionPattern (TrimSpace line) then config.Functions ++ [TrimSpace line]
          else config.Functions) ∧
      (classifyLine config line).Comments =
        (if commentPattern (TrimSpace line) then config.Comments ++ [TrimSpace line]
          else config.Comments)) := by
  refine ⟨?_, ?_, ?_, ?_, ?_, ?_, ?_⟩
  · rintro ⟨h1, h2⟩; rw [export_not_alias h1] at h2; cases h2
  · rintro ⟨h1, h2⟩; rw [export_not_function h1] at h2; cases h2
  · rintro ⟨h1, h2⟩; rw [export_not_comment h1] at h2; cases h2
  · rintro ⟨h1, h2⟩; rw [alias_not_function h1] at h2; cases h2
  · rintro ⟨h1, h2⟩; rw [alias_not_comment h1] at h2; cases h2
  · rintro ⟨h1, h2⟩; rw [function_not_comment h1] at h2; cases h2
  · intro config h0
    by_cases hE : exportPattern (TrimSpace line) = true
    · simp [classifyLine, h0, hE, export_not_alias hE, export_not_function hE,
        export_not_comment hE]
    · by_cases hA : aliasPattern (TrimSpace line) = true
      · simp [classifyLine, h0, hE, hA, alias_not_function hA, alias_not_comment hA]
      · by_cases hF : functionPattern (TrimSpace line) = true
        · simp [classifyLine, h0, hE, hA, hF, function_not_comment hF]
        · by_cases hC : commentPattern (TrimSpace line) = true
          · simp [classifyLine, h0, hE, hA, hF, hC]
          · simp [classifyLine, h0, hE, hA, hF, hC]


/-! ## The classifier as five filters -/

theorem foldl_classifyLine (lines : List Str) : ∀ config : ShellConfig,
    lines.foldl classifyLine config =
      { config with
        Exports := config.Exports ++
          ((lines.map TrimSpace).filter (fun l => l ≠ [])).filter (fun l => exportPattern l)
        Aliases := config.Aliases ++
          ((lines.map TrimSpace).filter (fun l => l ≠ [])).filter (fun l => aliasPattern l)
        Functions := config.Functions ++
          ((lines.map TrimSpace).filter (fun l => l ≠ [])).filter (fun l => functionPattern l)
        Comments := config.Comments ++
          ((lines.map TrimSpace).filter (fun l => l ≠ [])).filter (fun l => commentPattern l)
        Others := config.Others ++
          ((lines.map TrimSpace).filter (fun l => l ≠ [])).filter (fun l => otherLine l) } := by
  induction lines with
  | nil => intro config; simp
  | cons text lines ih =>
    intro config
    rw [List.foldl_cons, ih]
    by_cases h0 : TrimSpace text = []
    · simp [classifyLine, h0]
    · by_cases hE : exportPattern (TrimSpace text) = true
      · simp [classifyLine, h0, hE, export_not_alias hE, export_not_function hE,
          export_not_comment hE, otherLine, List.filter_cons]
      · by_cases hA : aliasPattern (TrimSpace text) = true
        · simp [classifyLine, h0, hE, hA, alias_not_function hA, alias_not_comment hA,
            otherLine, List.filter_cons]
        · by_cases hF : functionPattern (TrimSpace text) = true
          · simp [classifyLine, h0, hE, hA, hF, function_not_comment hF, otherLine,
              List.filter_cons]
          · by_cases hC : commentPattern (TrimSpace text) = true
            · simp [classifyLine, h0, hE, hA, hF, hC, otherLine, List.filter_cons]
            · simp [classifyLine, h0, hE, hA, hF, hC, otherLine, List.filter_cons]

theorem parseShellConfig_eq (path content : Str) :
    (parseShellConfig path content).1 =
      { FilePath := path, FileType := detectFileType path, Lines := [],
        Exports := (scannedTrimmed content).filter (fun l => exportPattern l),
        Aliases := (scannedTrimmed content).filter (fun l => aliasPattern l),
        Functions := (scannedTrimmed content).filter (fun l => functionPattern l),
        Comments := (scannedTrimmed content).filter (fun l => commentPattern l),
        Others := (scannedTrimmed content).filter (fun l => otherLine l) } := by
  unfold parseShellConfig
  simp only
  rw [foldl_classifyLine]
  simp [scannedTrimmed]

/-- When the scanner reports no error, it has yielded every physical line. -/
theorem scanTokens_of_no_error {content : Str} (h : (scanTokens content).2 = none) :
    (scanTokens content).1 = physicalLines content := by
  unfold scanTokens at h ⊢
  simp only at h ⊢
  split_ifs at h with hall
  unfold physicalLines
  congr 1
  apply List.takeWhile_eq_self_iff.mpr
  intro p hp
  exact List.all_eq_true.mp hall p hp

/-- The scanner reports no error exactly when no physical line has `MaxScanTokenSize` bytes or
more. -/
theorem scanTokens_no_error_iff (content : Str) :
    (scanTokens content).2 = none ↔ ∀ p ∈ rawLines content, byteLen p < MaxScanTokenSize := by
  unfold scanTokens
  simp only
  constructor
  · intro h
    split_ifs at h with hall
    intro p hp
    have := List.all_eq_true.mp hall p hp
    simpa [tooLong] using this
  · intro h
    rw [if_pos]
    apply List.all_eq_true.mpr
    intro p hp
    simpa [tooLong] using h p hp

theorem scannedTrimmed_of_no_error {path content : Str}
    (h : (parseShellConfig path content).2 = none) :
    scannedTrimmed content = nonEmptyTrimmed content := by
  unfold scannedTrimmed nonEmptyTrimmed
  rw [scanTokens_of_no_error h]

/-- The five filters split a list: every line goes to exactly one of them. -/
theorem five_filters_perm (t : List Str) :
    (t.filter (fun l => exportPattern l) ++ t.filter (fun l => aliasPattern l) ++
      t.filter (fun l => functionPattern l) ++ t.filter (fun l => commentPattern l) ++
      t.filter (fun l => otherLine l)).Perm t := by
  induction t with
  | nil => simp
  | cons l t ih =>
    by_cases hE : exportPattern l = true
    · have h1 := export_not_alias hE
      have h2 := export_not_function hE
      have h3 := export_not_comment hE
      simp only [List.filter_cons, hE, h1, h2, h3, otherLine]
      simpa using ih
    · by_cases hA : aliasPattern l = true
      · have h2 := alias_not_function hA
        have h3 := alias_not_comment hA
        simp only [List.filter_cons, hE, hA, h2, h3, otherLine]
        simp only [Bool.false_eq_true, ↓reduceIte, Bool.not_true, Bool.and_false, Bool.false_and,
          List.append_assoc]
        refine (List.perm_middle).trans ?_
        simpa using ih
      · by_cases hF : functionPattern l = true
        · have h3 := function_not_comment hF
          simp only [List.filter_cons, hE, hA, hF, h3, otherLine]
          simp only [Bool.false_eq_true, ↓reduceIte, Bool.not_true, Bool.and_false, Bool.false_and,
            List.append_assoc]
          rw [← List.append_assoc]
          refine (List.perm_middle).trans ?_
          simpa using ih
        · by_cases hC : commentPattern l = true
          · simp only [List.filter_cons, hE, hA, hF, hC, otherLine]
            simp only [Bool.false_eq_true, ↓reduceIte, Bool.not_true, Bool.and_false,
              List.append_assoc]
            rw [← List.append_assoc, ← List.append_assoc]
            refine (List.perm_middle).trans ?_
            simpa using ih
          · simp only [List.filter_cons, hE, hA, hF, hC, otherLine]
            simp only [Bool.false_eq_true, ↓reduceIte, Bool.not_false, Bool.and_self]
            refine (List.perm_middle).trans ?_
            simpa [otherLine] using ih

/-- The lines that the scanner yields are the first lines of the file. -/
theorem scannedTrimmed_isPrefix (content : Str) :
    scannedTrimmed content <+: nonEmptyTrimmed content := by
  unfold scannedTrimmed nonEmptyTrimmed scanTokens physicalLines
  simp only
  apply List.IsPrefix.filter
  apply List.IsPrefix.map
  apply List.IsPrefix.map
  exact ( List.takeWhile_prefix _)

/-- C1, amended. Partition exhaustiveness: for every input file, the multiset union of the five
buckets that `parseShellConfig` returns equals the multiset of the non-empty trimmed lines that
the scanner has yielded, which are the first non-empty trimmed lines of the file; when
`parseShellConfig` returns no error, they are all of them, so that each non-empty trimmed line
of the file is in exactly one bucket, none is lost and none is duplicated. -/
theorem parseShellConfig_partition (path content : Str) :
    (((parseShellConfig path content).1.Exports : Multiset Str) +
        (parseShellConfig path content).1.Aliases +
        (parseShellConfig path content).1.Functions +
        (parseShellConfig path content).1.Comments +
        (parseShellConfig path content).1.Others
      = (scannedTrimmed content : Multiset Str)) ∧
    scannedTrimmed content <+: nonEmptyTrimmed content ∧
    ((parseShellConfig path content).2 = none →
      ((parseShellConfig path content).1.Exports : Multiset Str) +
        (parseShellConfig path content).1.Aliases +
        (parseShellConfig path content).1.Functions +
        (parseShellConfig path content).1.Comments +
        (parseShellConfig path content).1.Others
      = (nonEmptyTrimmed content : Multiset Str)) := by
  have h : ((parseShellConfig path content).1.Exports : Multiset Str) +
        (parseShellConfig path content).1.Aliases +
        (parseShellConfig path content).1.Functions +
        (parseShellConfig path content).1.Comments +
        (parseShellConfig path content).1.Others
      = (scannedTrimmed content : Multiset Str) := by
    rw [parseShellConfig_eq]
    simp only [Multiset.coe_add, Multiset.coe_eq_coe]
    exact five_filters_perm _
  refine ⟨h, scannedTrimmed_isPrefix content, fun herr => ?_⟩
  rw [h, scannedTrimmed_of_no_error herr]


/-! ## Removal of styling: basic equations -/

theorem sgrParams_length : ∀ (s : Str) {r : Str}, sgrParams s = some r → r.length < s.length
  | [], _, h => by cases h
  | c :: cs, r, h => by
    simp only [sgrParams] at h
    split_ifs at h with h1 h2
    · injection h with h; subst h; simp
    · have := sgrParams_length cs h
      simp only [List.length_cons]; omega

theorem sgrTail_length {s r : Str} (h : sgrTail s = some r) : r.length < s.length := by
  cases s with
  | nil => cases h
  | cons c cs =>
    simp only [sgrTail] at h
    split_ifs at h
    have := sgrParams_length cs h
    simp only [List.length_cons]; omega

/-- The fuel of `stripAux` never runs out: any fuel from the length of the input on gives the
same result. -/
theorem stripAux_fuel : ∀ (n m : Nat) (s : Str), s.length ≤ n → s.length ≤ m →
    stripAux n s = stripAux m s := by
  intro n
  induction n with
  | zero =>
    intro m s hn _
    have : s = [] := List.length_eq_zero.mp (Nat.le_zero.mp hn)
    subst this
    cases m <;> rfl
  | succ n ih =>
    intro m s hn hm
    cases s with
    | nil => cases m <;> rfl
    | cons c cs =>
      cases m with
      | zero => simp at hm
      | succ m =>
        simp only [List.length_cons, Nat.add_le_add_iff_right] at hn hm
        simp only [stripAux]
        split_ifs with hc
        · cases ht : sgrTail cs with
          | none => simp only; rw [ih m cs hn hm]
          | some rest =>
            simp only
            have := sgrTail_length ht
            exact ih m rest (by omega) (by omega)
        · rw [ih m cs hn hm]

/-- The fuel of `replaceAll` never runs out: any fuel from the length of the input on gives the
same result. -/
theorem replaceAll_fuel (re : Str → Option Str) (repl : Str → Str) :
    ∀ (n m : Nat) (s : Str), s.length ≤ n → s.length ≤ m →
      replaceAll re repl n s = replaceAll re repl m s := by
  intro n
  induction n with
  | zero =>
    intro m s hn _
    have : s = [] := List.length_eq_zero.mp (Nat.le_zero.mp hn)
    subst this
    cases m <;> rfl
  | succ n ih =>
    intro m s hn hm
    cases s with
    | nil => cases m <;> rfl
    | cons c cs =>
      cases m with
      | zero => simp at hm
      | succ m =>
        simp only [List.length_cons, Nat.add_le_add_iff_right] at hn hm
        simp only [replaceAll]
        cases re (c :: cs) with
        | none => simp only; rw [ih m cs hn hm]
        | some rest =>
          simp only
          split_ifs with hlen
          · rw [ih m rest (by omega) (by omega)]
          · rw [ih m cs hn hm]

/-- The fuel of `findAll` never runs out. -/
theorem findAll_fuel (re : Str → Option Str) :
    ∀ (n m : Nat) (s : Str), s.length ≤ n → s.length ≤ m → findAll re n s = findAll re m s := by
  intro n
  induction n with
  | zero =>
    intro m s hn _
    have : s = [] := List.length_eq_zero.mp (Nat.le_zero.mp hn)
    subst this
    cases m <;> rfl
  | succ n ih =>
    intro m s hn hm
    cases s with
    | nil => cases m <;> rfl
    | cons c cs =>
      cases m with
      | zero => simp at hm
      | succ m =>
        simp only [List.length_cons, Nat.add_le_add_iff_right] at hn hm
        simp only [findAll]
        cases re (c :: cs) with
        | none => simp only; rw [ih m cs hn hm]
        | some rest =>
          simp only
          split_ifs with hlen
          · rw [ih m rest (by omega) (by omega)]
          · rw [ih m cs hn hm]

theorem stripStyling_nil : stripStyling [] = [] := rfl

theorem stripStyling_cons_ne {c : Char} (hc : c ≠ ESC) (s : Str) :
    stripStyling (c :: s) = c :: stripStyling s := by
  simp [stripStyling, stripAux, hc]

theorem stripStyling_esc_none {s : Str} (h : sgrTail s = none) :
    stripStyling (ESC :: s) = ESC :: stripStyling s := by
  simp [stripStyling, stripAux, h]

theorem stripStyling_esc_some {s r : Str} (h : sgrTail s = some r) :
    stripStyling (ESC :: s) = stripStyling r := by
  have hl := sgrTail_length h
  simp only [stripStyling, stripAux, List.length_cons, ↓reduceIte, h]
  exact stripAux_fuel _ _ _ (by omega) (le_refl _)

/-! ## Removal of styling: splitting at a safe position -/

theorem sgrParams_append {x : Str} (hx : safeStart x = true) :
    ∀ a : Str, sgrParams (a ++ x) = (sgrParams a).map (fun r => r ++ x)
  | [] => by
    cases x with
    | nil => rfl
    | cons c t =>
      simp only [safeStart, Bool.not_eq_true', Bool.or_eq_false_iff, beq_eq_false_iff_ne] at hx
      simp [sgrParams, hx.1.2, hx.2]
  | d :: a => by
    simp only [List.cons_append, sgrParams]
    split_ifs with h1 h2
    · rfl
    · exact sgrParams_append hx a
    · rfl

theorem sgrTail_append {x : Str} (hx : safeStart x = true) (a : Str) :
    sgrTail (a ++ x) = (sgrTail a).map (fun r => r ++ x) := by
  cases a with
  | nil =>
    cases x with
    | nil => rfl
    | cons c t =>
      simp only [safeStart, Bool.not_eq_true', Bool.or_eq_false_iff, beq_eq_false_iff_ne] at hx
      simp [sgrTail, hx.1.1]
  | cons d a =>
    simp only [List.cons_append, sgrTail]
    split_ifs
    · exact sgrParams_append hx a
    · rfl

theorem stripStyling_append_aux {x : Str} (hx : safeStart x = true) :
    ∀ (n : Nat) (a : Str), a.length ≤ n →
      stripStyling (a ++ x) = stripStyling a ++ stripStyling x := by
  intro n
  induction n with
  | zero =>
    intro a ha
    have : a = [] := List.length_eq_zero.mp (Nat.le_zero.mp ha)
    subst this
    simp [stripStyling_nil]
  | succ n ih =>
    intro a ha
    cases a with
    | nil => simp [stripStyling_nil]
    | cons c a =>
      simp only [List.length_cons, Nat.add_le_add_iff_right] at ha
      by_cases hc : c = ESC
      · subst hc
        cases ht : sgrTail a with
        | none =>
          have ht' : sgrTail (a ++ x) = none := by rw [sgrTail_append hx, ht]; rfl
          rw [List.cons_append, stripStyling_esc_none ht', stripStyling_esc_none ht, ih a ha]
          rfl
        | some r =>
          have ht' : sgrTail (a ++ x) = some (r ++ x) := by rw [sgrTail_append hx, ht]; rfl
          have := sgrTail_length ht
          rw [List.cons_append, stripStyling_esc_some ht', stripStyling_esc_some ht,
            ih r (by omega)]
      · rw [List.cons_append, stripStyling_cons_ne hc, stripStyling_cons_ne hc, ih a ha]
        rfl

/-- Removal of styling splits at a position where no escape sequence can be under way. -/
theorem stripStyling_append {x : Str} (hx : safeStart x = true) (a : Str) :
    stripStyling (a ++ x) = stripStyling a ++ stripStyling x :=
  stripStyling_append_aux hx a.length a (le_refl _)

theorem stripStyling_of_no_esc : ∀ (w : Str), (∀ c ∈ w, c ≠ ESC) → ∀ x : Str,
    stripStyling (w ++ x) = w ++ stripStyling x
  | [], _, x => rfl
  | c :: w, h, x => by
    rw [List.cons_append, stripStyling_cons_ne (h c (by simp)),
      stripStyling_of_no_esc w (fun d hd => h d (by simp [hd])) x]
    rfl

theorem safeStart_esc (s : Str) : safeStart (ESC :: s) = true := by
  simp [safeStart, ESC, isParam]

/-- An opening or closing sequence at the start of a string is removed. -/
theorem stripStyling_seq (sgr : Str) (hs : ∀ c ∈ sgr, isParam c = true) (y : Str) :
    stripStyling (ESC :: '[' :: (sgr ++ 'm' :: y)) = stripStyling y := by
  apply stripStyling_esc_some
  simp only [sgrTail, ↓reduceIte]
  induction sgr with
  | nil => simp [sgrParams]
  | cons c sgr ih =>
    have hc : isParam c = true := hs c (by simp)
    have hm : c ≠ 'm' := by intro h; subst h; revert hc; decide
    simp only [List.cons_append, sgrParams, hm, ↓reduceIte, hc]
    exact ih (fun d hd => hs d (by simp [hd]))

theorem stripStyling_reset (y : Str) : stripStyling (ESC :: '[' :: '0' :: 'm' :: y) = stripStyling y :=
  stripStyling_seq ['0'] (by decide) y

/-- Styled text between two strings: in the plain-text view the markers are gone, as long as
the styled text starts where no escape sequence can be under way and the text after it splits
off in the plain-text view. -/
theorem stripStyling_render (st : Style) (hs : ∀ c ∈ st.sgr, isParam c = true)
    (a m rest : Str) (hm : safeStart (m ++ rest) = true)
    (hsplit : stripStyling (m ++ rest) = stripStyling m ++ stripStyling rest) :
    stripStyling (a ++ st.wrap m ++ rest) = stripStyling (a ++ m ++ rest) := by
  have e1 : a ++ st.wrap m ++ rest
      = a ++ (ESC :: '[' :: (st.sgr ++ 'm' :: (m ++ (ESC :: '[' :: '0' :: 'm' :: rest)))) := by
    simp [Style.wrap]
  have e2 : stripStyling (m ++ (ESC :: '[' :: '0' :: 'm' :: rest))
      = stripStyling m ++ stripStyling rest := by
    rw [stripStyling_append (safeStart_esc _), stripStyling_reset]
  rw [e1, stripStyling_append (safeStart_esc _), stripStyling_seq _ hs, e2,
    List.append_assoc, stripStyling_append hm, hsplit]


/-! ## The colorizer only inserts styling -/

theorem stripStyling_replaceAll (st : Style) (hs : ∀ c ∈ st.sgr, isParam c = true)
    (re : Str → Option Str) (hre : CleanCut re) :
    ∀ (n : Nat) (s a : Str),
      stripStyling (a ++ replaceAll re (fun m => st.wrap m) n s) = stripStyling (a ++ s) := by
  intro n
  induction n with
  | zero => intro s a; rfl
  | succ n ih =>
    intro s a
    cases s with
    | nil => rfl
    | cons c cs =>
      have hcopy : stripStyling (a ++ c :: replaceAll re (fun m => st.wrap m) n cs)
          = stripStyling (a ++ c :: cs) := by
        have := ih cs (a ++ [c])
        simpa using this
      simp only [replaceAll]
      cases hm : re (c :: cs) with
      | none => exact hcopy
      | some rest =>
        simp only
        split_ifs with hlen
        · obtain ⟨m, hm', hsafe, hsplit⟩ := hre _ _ hm
          have htake : (c :: cs).take ((c :: cs).length - rest.length) = m := by
            rw [hm']; simp
          rw [htake, ← List.append_assoc, ih rest (a ++ st.wrap m), hm']
          rw [hm'] at hsafe
          have := stripStyling_render st hs a m rest hsafe hsplit
          simpa using this
        · exact hcopy

theorem stripStyling_split_after {q : Char} (hq : q ≠ ESC) (hsafe : safeStart [q] = true)
    (w rest : Str) :
    stripStyling (w ++ q :: rest) = stripStyling (w ++ [q]) ++ stripStyling rest := by
  have h1 : safeStart (q :: rest) = true := by simpa [safeStart] using hsafe
  rw [stripStyling_append h1, stripStyling_append hsafe, stripStyling_cons_ne hq,
    stripStyling_cons_ne hq, stripStyling_nil]
  simp

theorem quoted_shape {q : Char} {cls : Char → Bool} {s rest : Str}
    (h : (((lit [q] s).bind (many cls)).bind (lit [q])) = some rest) :
    ∃ w, s = (q :: w ++ [q]) ++ rest := by
  simp only [Option.bind_eq_some, many, Option.some.injEq] at h
  obtain ⟨r2, ⟨r1, h1, rfl⟩, h3⟩ := h
  have e1 := lit_eq_some h1
  have e3 := lit_eq_some h3
  refine ⟨r1.takeWhile cls, ?_⟩
  rw [e1]
  have := List.takeWhile_append_dropWhile cls r1
  rw [e3] at this
  simp only [List.singleton_append, List.cons_append, List.append_assoc, List.nil_append] at this ⊢
  rw [this]

theorem cleanCut_quotedPattern : CleanCut quotedPattern := by
  intro s rest h
  unfold quotedPattern at h
  cases h1 : (((lit [dquote] s).bind (many reNotDquote)).bind (lit [dquote])) with
  | some r =>
    rw [h1] at h
    simp only [Option.orElse, Option.some.injEq] at h
    subst h
    obtain ⟨w, hw⟩ := quoted_shape h1
    refine ⟨dquote :: w ++ [dquote], hw, by rw [hw]; rfl, ?_⟩
    have := stripStyling_split_after (q := dquote) (by decide) (by decide) (dquote :: w) r
    simpa using this
  | none =>
    rw [h1] at h
    simp only [Option.orElse] at h
    obtain ⟨w, hw⟩ := quoted_shape h
    refine ⟨squote :: w ++ [squote], hw, by rw [hw]; rfl, ?_⟩
    have := stripStyling_split_after (q := squote) (by decide) (by decide) (squote :: w) rest
    simpa using this

theorem reUpperDigit_ne_esc {c : Char} (h : reUpperDigit c = true) : c ≠ ESC := by
  intro e; subst e; revert h; decide

theorem reUpper_ne_esc {c : Char} (h : reUpper c = true) : c ≠ ESC := by
  intro e; subst e; revert h; decide

theorem safeStart_of_not_rePathChar : ∀ (r : Str), (∀ c, r.head? = some c → rePathChar c = false) →
    safeStart r = true
  | [], _ => rfl
  | c :: r, h => by
    have hc := h c rfl
    simp only [rePathChar, Bool.not_eq_false', Bool.or_eq_true, beq_iff_eq] at hc
    rcases hc with (hc | hc) | hc
    · subst hc; rfl
    · subst hc; rfl
    · simp only [reSpace, Bool.or_eq_true, beq_iff_eq] at hc
      have e1 : ('['.toNat) = 91 := by decide
      have e2 : ('m'.toNat) = 109 := by decide
      have n1 : c ≠ '[' := by intro e; rw [e, e1] at hc; omega
      have n2 : c ≠ 'm' := by intro e; rw [e, e2] at hc; omega
      have n3 : isParam c = false := by
        simp only [isParam, Bool.or_eq_false_iff, Bool.and_eq_false_imp, decide_eq_true_eq,
          decide_eq_false_iff_not, beq_eq_false_iff_ne]
        omega
      simp [safeStart, n1, n2, n3]

theorem head_dropWhile_not {cls : Char → Bool} (t : Str) :
    ∀ c, (t.dropWhile cls).head? = some c → cls c = false := by
  intro c hc
  induction t with
  | nil => simp at hc
  | cons d t ih =>
    by_cases hd : cls d = true
    · rw [List.dropWhile_cons_of_pos hd] at hc; exact ih hc
    · rw [List.dropWhile_cons_of_neg hd] at hc
      simp only [List.head?_cons, Option.some.injEq] at hc
      subst hc; simpa using hd

theorem cleanCut_pathPattern : CleanCut pathPattern := by
  intro s rest h
  unfold pathPattern at h
  cases h1 : (((lit "$".toList s).bind (one reUpper)).bind (many reUpperDigit)) with
  | some r =>
    rw [h1] at h
    simp only [Option.orElse, Option.some.injEq] at h
    subst h
    simp only [Option.bind_eq_some, many, Option.some.injEq] at h1
    obtain ⟨r2, ⟨r1, h2, h3⟩, rfl⟩ := h1
    obtain ⟨u, rfl, hu⟩ := one_eq_some h3
    have e1 := lit_eq_some h2
    have hs : s = ('$' :: u :: r2.takeWhile reUpperDigit) ++ r2.dropWhile reUpperDigit := by
      rw [e1]
      simp [List.takeWhile_append_dropWhile]
    have hne : ∀ c ∈ '$' :: u :: r2.takeWhile reUpperDigit, c ≠ ESC := by
      intro c hc
      simp only [List.mem_cons] at hc
      rcases hc with rfl | rfl | hc
      · decide
      · exact reUpper_ne_esc hu
      · exact reUpperDigit_ne_esc (List.mem_takeWhile_imp hc)
    refine ⟨_, hs, by rw [hs]; rfl, ?_⟩
    rw [stripStyling_of_no_esc _ hne]
    have := stripStyling_of_no_esc _ hne []
    simp only [List.append_nil, stripStyling_nil] at this
    rw [this]
  | none =>
    rw [h1] at h
    simp only [Option.orElse, Option.bind_eq_some] at h
    obtain ⟨r1, h2, h3⟩ := h
    obtain ⟨c, t, rfl, hc, rfl⟩ := many1_eq_some h3
    have e1 := lit_eq_some h2
    have hs : s = ('/' :: c :: t.takeWhile rePathChar) ++ t.dropWhile rePathChar := by
      rw [e1]
      simp [List.takeWhile_append_dropWhile]
    refine ⟨_, hs, by rw [hs]; rfl, ?_⟩
    exact stripStyling_append (safeStart_of_not_rePathChar _ (head_dropWhile_not t)) _

theorem isParam_keywordStyle : ∀ c ∈ keywordStyle.sgr, isParam c = true := by decide

theorem isParam_stringStyle : ∀ c ∈ stringStyle.sgr, isParam c = true := by decide

theorem isParam_pathStyle : ∀ c ∈ pathStyle.sgr, isParam c = true := by decide

theorem isParam_commentStyle : ∀ c ∈ commentStyle.sgr, isParam c = true := by decide

/-! ## Tab conversion -/

theorem expandTabs_append : ∀ (a b : Str), expandTabs (a ++ b) = expandTabs a ++ expandTabs b
  | [], _ => rfl
  | c :: a, b => by
    simp only [List.cons_append, expandTabs]
    split_ifs
    · simp [expandTabs_append a b]
    · simp [expandTabs_append a b]

theorem expandTabs_cons_ne {c : Char} (hc : c ≠ TAB) (s : Str) :
    expandTabs (c :: s) = c :: expandTabs s := by
  simp [expandTabs, hc]

theorem expandTabs_of_no_tab : ∀ (s : Str), TAB ∉ s → expandTabs s = s
  | [], _ => rfl
  | c :: s, h => by
    have hc : c ≠ TAB := fun e => h (by simp [e])
    rw [expandTabs_cons_ne hc, expandTabs_of_no_tab s (fun hm => h (by simp [hm]))]

theorem Render_eq_wrap (st : Style) (s : Str) : st.Render s = st.wrap (expandTabs s) := rfl

/-- A match of the quoted-string pattern starts and ends with the same quote. -/
theorem quotedPattern_match {s rest : Str} (h : quotedPattern s = some rest) :
    ∃ q w, (q = dquote ∨ q = squote) ∧ s = (q :: w ++ [q]) ++ rest := by
  unfold quotedPattern at h
  cases h1 : (((lit [dquote] s).bind (many reNotDquote)).bind (lit [dquote])) with
  | some r =>
    rw [h1] at h
    simp only [Option.orElse, Option.some.injEq] at h
    subst h
    obtain ⟨w, hw⟩ := quoted_shape h1
    exact ⟨dquote, w, Or.inl rfl, hw⟩
  | none =>
    rw [h1] at h
    simp only [Option.orElse] at h
    obtain ⟨w, hw⟩ := quoted_shape h
    exact ⟨squote, w, Or.inr rfl, hw⟩

theorem quotedPattern_none {c : Char} (h1 : c ≠ dquote) (h2 : c ≠ squote) (t : Str) :
    quotedPattern (c :: t) = none := by
  have e1 : ¬ (dquote = c) := fun e => h1 e.symm
  have e2 : ¬ (squote = c) := fun e => h2 e.symm
  simp [quotedPattern, lit, e1, e2, Option.orElse]

/-- A match of the path pattern is a prefix of the input and holds no tab. -/
theorem pathPattern_no_tab {s rest : Str} (h : pathPattern s = some rest) :
    ∃ m, s = m ++ rest ∧ TAB ∉ m := by
  unfold pathPattern at h
  cases h1 : (((lit "$".toList s).bind (one reUpper)).bind (many reUpperDigit)) with
  | some r =>
    rw [h1] at h
    simp only [Option.orElse, Option.some.injEq] at h
    subst h
    simp only [Option.bind_eq_some, many, Option.some.injEq] at h1
    obtain ⟨r2, ⟨r1, h2, h3⟩, rfl⟩ := h1
    obtain ⟨u, rfl, hu⟩ := one_eq_some h3
    have e1 := lit_eq_some h2
    refine ⟨'$' :: u :: r2.takeWhile reUpperDigit, ?_, ?_⟩
    · rw [e1]
      simp [List.takeWhile_append_dropWhile]
    · intro hc
      simp only [List.mem_cons] at hc
      rcases hc with hc | hc | hc
      · revert hc; decide
      · rw [← hc] at hu; revert hu; decide
      · have := List.mem_takeWhile_imp hc
        revert this; decide
  | none =>
    rw [h1] at h
    simp only [Option.orElse, Option.bind_eq_some] at h
    obtain ⟨r1, h2, h3⟩ := h
    obtain ⟨c, t, rfl, hc, rfl⟩ := many1_eq_some h3
    have e1 := lit_eq_some h2
    refine ⟨'/' :: c :: t.takeWhile rePathChar, ?_, ?_⟩
    · rw [e1]
      simp [List.takeWhile_append_dropWhile]
    · intro hm
      simp only [List.mem_cons] at hm
      rcases hm with hm | hm | hm
      · revert hm; decide
      · rw [← hm] at hc; revert hc; decide
      · have := List.mem_takeWhile_imp hm
        revert this; decide

theorem take_of_append {s m rest : Str} (h : s = m ++ rest) :
    s.take (s.length - rest.length) = m := by
  rw [h]; simp

/-- Replacement functions that agree on the matches give the same result. -/
theorem replaceAll_congr (re : Str → Option Str) (r1 r2 : Str → Str)
    (h : ∀ s rest, re s = some rest →
      r1 (s.take (s.length - rest.length)) = r2 (s.take (s.length - rest.length))) :
    ∀ (n : Nat) (s : Str), replaceAll re r1 n s = replaceAll re r2 n s := by
  intro n
  induction n with
  | zero => intro s; rfl
  | succ n ih =>
    intro s
    cases s with
    | nil => rfl
    | cons c cs =>
      simp only [replaceAll]
      cases hm : re (c :: cs) with
      | none => simp only; rw [ih cs]
      | some rest =>
        simp only
        split_ifs
        · rw [h _ _ hm, ih rest]
        · rw [ih cs]

/-- A prefix in which no match starts is copied. -/
theorem replaceAll_append_left (re : Str → Option Str) (repl : Str → Str) :
    ∀ (w : Str), (∀ c ∈ w, ∀ t, re (c :: t) = none) → ∀ (n : Nat) (r : Str),
      replaceAll re repl (w.length + n) (w ++ r) = w ++ replaceAll re repl n r
  | [], _, n, r => by simp
  | c :: w, hw, n, r => by
    have e : (c :: w).length + n = (w.length + n) + 1 := by simp only [List.length_cons]; omega
    rw [e, List.cons_append]
    simp only [replaceAll, hw c (by simp)]
    rw [replaceAll_append_left re repl w (fun d hd => hw d (by simp [hd])) n r]
    rfl

/-- Styled replacements against plain ones: in the plain-text view the markers are gone, when the
replaced text starts where no escape sequence is under way and the plain-text view splits
after it. -/
theorem stripStyling_replaceAll_map (st : Style) (hs : ∀ c ∈ st.sgr, isParam c = true)
    (re : Str → Option Str) (f : Str → Str)
    (hre : ∀ s rest, re s = some rest → ∃ m, s = m ++ rest ∧
      (∀ Y, safeStart (f m ++ Y) = true) ∧
      ∀ X, stripStyling (f m ++ X) = stripStyling (f m) ++ stripStyling X) :
    ∀ (n : Nat) (s a : Str),
      stripStyling (a ++ replaceAll re (fun m => st.wrap (f m)) n s)
        = stripStyling (a ++ replaceAll re f n s) := by
  intro n
  induction n with
  | zero => intro s a; rfl
  | succ n ih =>
    intro s a
    cases s with
    | nil => rfl
    | cons c cs =>
      have hcopy : stripStyling (a ++ c :: replaceAll re (fun m => st.wrap (f m)) n cs)
          = stripStyling (a ++ c :: replaceAll re f n cs) := by
        have := ih cs (a ++ [c])
        simpa using this
      simp only [replaceAll]
      cases hm : re (c :: cs) with
      | none => exact hcopy
      | some rest =>
        simp only
        split_ifs with hlen
        · obtain ⟨m, hm', hsafe, hsplit⟩ := hre _ _ hm
          rw [take_of_append hm', ← List.append_assoc, ih rest (a ++ st.wrap (f m))]
          have := stripStyling_render st hs a (f m) (replaceAll re f n rest) (hsafe _)
            (hsplit _)
          simpa using this
        · exact hcopy

/-- The path rule in the plain-text view: nothing but markers is inserted, since a path holds
no tab. -/
theorem stripStyling_pathRule (s : Str) :
    stripStyling (ReplaceAllStringFunc pathPattern s (fun m => pathStyle.Render m))
      = stripStyling s := by
  unfold ReplaceAllStringFunc
  have hc : replaceAll pathPattern (fun m => pathStyle.Render m) s.length s
      = replaceAll pathPattern (fun m => pathStyle.wrap m) s.length s := by
    apply replaceAll_congr
    intro s' rest h
    obtain ⟨m, hm, htab⟩ := pathPattern_no_tab h
    simp only [take_of_append hm, Render_eq_wrap, expandTabs_of_no_tab m htab]
  rw [hc]
  exact stripStyling_replaceAll pathStyle isParam_pathStyle pathPattern cleanCut_pathPattern
    _ s []

/-- The quoted-string rule in the plain-text view: the tabs of the quoted strings are
converted. -/
theorem stripStyling_quotedRule (n : Nat) (s a : Str) :
    stripStyling (a ++ replaceAll quotedPattern (fun m => stringStyle.Render m) n s)
      = stripStyling (a ++ replaceAll quotedPattern expandTabs n s) := by
  apply stripStyling_replaceAll_map stringStyle isParam_stringStyle quotedPattern expandTabs
  intro s' rest h
  obtain ⟨q, w, hq, hs'⟩ := quotedPattern_match h
  have hq1 : q ≠ TAB := by rcases hq with rfl | rfl <;> decide
  have hq2 : q ≠ ESC := by rcases hq with rfl | rfl <;> decide
  have hq3 : safeStart [q] = true := by rcases hq with rfl | rfl <;> decide
  have e : expandTabs (q :: w ++ [q]) = (q :: expandTabs w) ++ [q] := by
    rw [List.cons_append, expandTabs_cons_ne hq1, expandTabs_append, expandTabs_cons_ne hq1]
    rfl
  refine ⟨q :: w ++ [q], hs', ?_, ?_⟩
  · intro Y
    rw [e]
    exact hq3
  · intro X
    rw [e, List.append_assoc, List.singleton_append]
    exact stripStyling_split_after hq2 hq3 _ _

/-- The keyword loop either leaves the line, or finds a keyword at its start and renders it. -/
theorem styleKeyword_cases : ∀ (kws : List Str) (line : Str),
    styleKeyword kws line = line ∨
    ∃ kw ∈ kws, ∃ r, line = kw ++ r ∧ styleKeyword kws line = keywordStyle.Render kw ++ r
  | [], _ => Or.inl rfl
  | kw :: kws, line => by
    simp only [styleKeyword]
    split_ifs with hp
    · obtain ⟨r, rfl⟩ := List.isPrefixOf_iff_prefix.mp hp
      exact Or.inr ⟨kw, by simp, r, rfl, by simp⟩
    · rcases styleKeyword_cases kws line with h | ⟨kw', hk, r, h1, h2⟩
      · exact Or.inl h
      · exact Or.inr ⟨kw', by simp [hk], r, h1, h2⟩

theorem keyword_facts : ∀ kw ∈ keywords,
    keywordStyle.Render kw = keywordStyle.wrap kw ∧
    (∀ c ∈ kw, c ≠ ESC) ∧ (∀ r, safeStart (kw ++ r) = true) ∧
    (∀ r, HasPrefix (kw ++ r) "#".toList = false) ∧
    (∀ c ∈ kw, ∀ t, quotedPattern (c :: t) = none) ∧
    (∀ c ∈ keywordStyle.wrap kw, ∀ t, quotedPattern (c :: t) = none) := by
  have hq : ∀ (w : Str), (∀ c ∈ w, c ≠ dquote ∧ c ≠ squote) →
      ∀ c ∈ w, ∀ t, quotedPattern (c :: t) = none :=
    fun w hw c hc t => quotedPattern_none (hw c hc).1 (hw c hc).2 t
  intro kw hkw
  simp only [keywords, List.mem_cons, List.mem_singleton, List.not_mem_nil, or_false] at hkw
  rcases hkw with rfl | rfl | rfl
  · exact ⟨rfl, by decide, fun r => rfl, fun r => rfl, hq _ (by decide), hq _ (by decide)⟩
  · exact ⟨rfl, by decide, fun r => rfl, fun r => rfl, hq _ (by decide), hq _ (by decide)⟩
  · exact ⟨rfl, by decide, fun r => rfl, fun r => rfl, hq _ (by decide), hq _ (by decide)⟩

theorem stripStyling_wrap_keyword {kw : Str} (hkw : kw ∈ keywords) (X : Str) :
    stripStyling (keywordStyle.wrap kw ++ X) = stripStyling (kw ++ X) := by
  obtain ⟨-, h1, h2, -, -, -⟩ := keyword_facts kw hkw
  have hsplit : stripStyling (kw ++ X) = stripStyling kw ++ stripStyling X := by
    rw [stripStyling_of_no_esc _ h1]
    have := stripStyling_of_no_esc _ h1 []
    simp only [List.append_nil, stripStyling_nil] at this
    rw [this]
  have := stripStyling_render keywordStyle isParam_keywordStyle [] kw X (h2 X) hsplit
  simpa using this

/-- In the plain-text view a highlighted line is the line with its tabs converted where the
colorizer renders text: in a comment, and inside quoted strings. -/
theorem stripStyling_highlightSyntax (line : Str) :
    stripStyling (highlightSyntax line) = plainOf line := by
  unfold plainOf tabsExpanded highlightSyntax
  simp only
  rcases styleKeyword_cases keywords line with h | ⟨kw, hkw, r, hline, h⟩
  · rw [h]
    split_ifs with hc
    · obtain ⟨t, ht⟩ := List.isPrefixOf_iff_prefix.mp hc
      have hsafe : safeStart (expandTabs line ++ []) = true := by
        rw [← ht]; rfl
      have := stripStyling_render commentStyle isParam_commentStyle []
        (expandTabs line) [] hsafe (by simp [stripStyling_nil])
      simpa [Render_eq_wrap] using this
    · rw [stripStyling_pathRule]
      unfold ReplaceAllStringFunc
      have := stripStyling_quotedRule line.length line []
      simpa using this
  · obtain ⟨h0, h1, h2, h3, h4, h5⟩ := keyword_facts kw hkw
    have hc1 : HasPrefix (keywordStyle.Render kw ++ r) "#".toList = false := rfl
    have hc2 : HasPrefix line "#".toList = false := by rw [hline]; exact h3 r
    rw [h, hc1, hc2]
    simp only [Bool.false_eq_true, ↓reduceIte]
    rw [stripStyling_pathRule]
    unfold ReplaceAllStringFunc
    have e1 := stripStyling_quotedRule (keywordStyle.Render kw ++ r).length
      (keywordStyle.Render kw ++ r) []
    simp only [List.nil_append] at e1
    rw [e1, h0, hline]
    have l1 : (keywordStyle.wrap kw ++ r).length = (keywordStyle.wrap kw).length + r.length :=
      List.length_append _ _
    have l2 : (kw ++ r).length = kw.length + r.length := List.length_append _ _
    rw [l1, l2, replaceAll_append_left _ _ _ h5, replaceAll_append_left _ _ _ h4,
      stripStyling_wrap_keyword hkw]

theorem stripStyling_of_not_hasStyling : ∀ (s : Str), hasStyling s = false → stripStyling s = s
  | [], _ => rfl
  | c :: s, h => by
    simp only [hasStyling, Bool.or_eq_false_iff, Bool.and_eq_false_imp, beq_iff_eq] at h
    by_cases hc : c = ESC
    · subst hc
      have hn : sgrTail s = none := by
        have := h.1 rfl
        simpa using this
      rw [stripStyling_esc_none hn, stripStyling_of_not_hasStyling s h.2]
    · rw [stripStyling_cons_ne hc, stripStyling_of_not_hasStyling s h.2]

/-! ## Tab conversion makes no escape sequence -/

theorem TabExp.refl : ∀ (s : Str), TabExp s s
  | [] => TabExp.nil
  | c :: s => TabExp.keep c (TabExp.refl s)

theorem TabExp.append {s t s' t' : Str} (h : TabExp s t) (h' : TabExp s' t') :
    TabExp (s ++ s') (t ++ t') := by
  induction h with
  | nil => exact h'
  | keep c _ ih => exact TabExp.keep c ih
  | expand _ ih => exact TabExp.expand ih

theorem TabExp_expandTabs : ∀ (s : Str), TabExp s (expandTabs s)
  | [] => TabExp.nil
  | c :: s => by
    simp only [expandTabs]
    split_ifs with hc
    · subst hc; exact TabExp.expand (TabExp_expandTabs s)
    · exact TabExp.keep c (TabExp_expandTabs s)

theorem TabExp_replaceAll (re : Str → Option Str)
    (hre : ∀ s rest, re s = some rest → ∃ m, s = m ++ rest) :
    ∀ (n : Nat) (s : Str), TabExp s (replaceAll re expandTabs n s) := by
  intro n
  induction n with
  | zero => intro s; exact TabExp.refl s
  | succ n ih =>
    intro s
    cases s with
    | nil => exact TabExp.nil
    | cons c cs =>
      simp only [replaceAll]
      cases hm : re (c :: cs) with
      | none => exact TabExp.keep c (ih cs)
      | some rest =>
        simp only
        split_ifs
        · obtain ⟨m, hm'⟩ := hre _ _ hm
          rw [take_of_append hm']
          conv_lhs => rw [hm']
          exact TabExp.append (TabExp_expandTabs m) (ih rest)
        · exact TabExp.keep c (ih cs)

theorem TabExp_tabsExpanded (line : Str) : TabExp line (tabsExpanded line) := by
  unfold tabsExpanded
  split_ifs
  · exact TabExp_expandTabs line
  · exact TabExp_replaceAll quotedPattern
      (fun s rest h => by
        obtain ⟨q, w, -, hs⟩ := quotedPattern_match h
        exact ⟨_, hs⟩) _ line

theorem sgrParams_tabExp {s t : Str} (h : TabExp s t) :
    (sgrParams t).isSome = (sgrParams s).isSome := by
  induction h with
  | nil => rfl
  | keep c _ ih =>
    simp only [sgrParams]
    split_ifs
    · rfl
    · exact ih
    · rfl
  | expand _ _ => rfl

theorem sgrTail_tabExp {s t : Str} (h : TabExp s t) :
    (sgrTail t).isSome = (sgrTail s).isSome := by
  cases h with
  | nil => rfl
  | keep c h' =>
    simp only [sgrTail]
    split_ifs
    · exact sgrParams_tabExp h'
    · rfl
  | expand _ => rfl

theorem hasStyling_tabExp {s t : Str} (h : TabExp s t) : hasStyling t = hasStyling s := by
  induction h with
  | nil => rfl
  | keep c h' ih =>
    simp only [hasStyling, ih, sgrTail_tabExp h']
  | expand h' ih =>
    have e1 : ∀ x : Str, hasStyling (' ' :: x) = hasStyling x := fun x => rfl
    have e2 : ∀ x : Str, hasStyling (TAB :: x) = hasStyling x := fun x => rfl
    rw [e1, e1, e1, e1, e2, ih]

/-- A line without styling escape sequence reads, in the plain-text view of the output, as the
line with its tabs converted, and as itself when no tab is converted. -/
theorem plainOf_of_not_hasStyling {line : Str} (h : hasStyling line = false) :
    plainOf line = tabsExpanded line := by
  unfold plainOf
  apply stripStyling_of_not_hasStyling
  rw [hasStyling_tabExp (TabExp_tabsExpanded line), h]

theorem plainOf_eq_self {line : Str} (h : hasStyling line = false)
    (ht : tabsExpanded line = line) : plainOf line = line := by
  rw [plainOf_of_not_hasStyling h, ht]

set_option maxRecDepth 100000 in
/-- C7, as the code behaves. Scenario S1: for the three input lines `export PATH=/usr/bin`,
`alias ll='ls -la'`, `# hi` the plain-text output has exactly nine lines; no blank line
separates the alias entry from `# Functions`, because the functions section is empty. -/
theorem scenario_S1 :
    plainLines (formatShellConfig (parseShellConfig "/home/u/.bashrc".toList
      "export PATH=/usr/bin\nalias ll='ls -la'\n# hi\n".toList).1)
    = ["# Comments".toList, "# hi".toList, [], "# Exports".toList,
       "export PATH=/usr/bin".toList, [], "# Aliases".toList, "alias ll='ls -la'".toList,
       "# Functions".toList] := by
  decide

set_option maxRecDepth 100000 in
/-- C7, as the specification states it, fails: the plain-text output of scenario S1 is not the
ten lines with a blank line between the alias entry and `# Functions`. -/
theorem scenario_S1_not_ten_lines :
    plainLines (formatShellConfig (parseShellConfig "/home/u/.bashrc".toList
      "export PATH=/usr/bin\nalias ll='ls -la'\n# hi\n".toList).1)
    ≠ ["# Comments".toList, "# hi".toList, [], "# Exports".toList,
       "export PATH=/usr/bin".toList, [], "# Aliases".toList, "alias ll='ls -la'".toList, [],
       "# Functions".toList] := by
  decide

set_option maxRecDepth 100000 in
/-- C9, at the failing input. On the line `/a"b"` the quoted-string rule inserts the opening
sequence of the string style before `"b"`, and the path rule then matches `/a` together with
that sequence: the substring wrapped in the path style contains an escape character that the
line does not contain, and the reset of the path style follows the opening sequence of the
string style at once. -/
theorem path_rule_rematches_styling :
    pathMatches "/a\"b\"".toList = ["/a\x1b[38;2;80;250;123m".toList] ∧
    ESC ∈ "/a\x1b[38;2;80;250;123m".toList ∧
    ESC ∉ "/a\"b\"".toList ∧
    highlightSyntax "/a\"b\"".toList =
      pathStyle.Render "/a\x1b[38;2;80;250;123m".toList ++ "\"b\"\x1b[0m".toList := by
  decide


/-! ## Joining and splitting lines -/

theorem Join_nil (sep : Str) : Join [] sep = [] := rfl

theorem Join_singleton (l sep : Str) : Join [l] sep = l := by
  simp [Join, List.intercalate]

theorem Join_cons_cons (a b : Str) (ls : List Str) (sep : Str) :
    Join (a :: b :: ls) sep = a ++ sep ++ Join (b :: ls) sep := by
  simp [Join, List.intercalate]

theorem safeStart_LF (s : Str) : safeStart (LF :: s) = true := rfl

theorem LF_ne_ESC : LF ≠ ESC := by decide

theorem stripStyling_Join : ∀ (ls : List Str),
    stripStyling (Join ls [LF]) = Join (ls.map stripStyling) [LF]
  | [] => rfl
  | [l] => by simp [Join_singleton]
  | a :: b :: ls => by
    have ih := stripStyling_Join (b :: ls)
    rw [Join_cons_cons, List.map_cons, List.map_cons, Join_cons_cons, List.append_assoc,
      List.singleton_append, stripStyling_append (safeStart_LF _),
      stripStyling_cons_ne LF_ne_ESC, ih]
    simp

theorem sgrParams_mem : ∀ (s : Str) {r : Str}, sgrParams s = some r → ∀ c ∈ r, c ∈ s
  | [], _, h => by cases h
  | d :: cs, r, h => by
    simp only [sgrParams] at h
    split_ifs at h with h1 h2
    · injection h with h; subst h; intro c hc; simp [hc]
    · intro c hc
      have := sgrParams_mem cs h c hc
      simp [this]

theorem sgrTail_mem {s r : Str} (h : sgrTail s = some r) : ∀ c ∈ r, c ∈ s := by
  cases s with
  | nil => cases h
  | cons d cs =>
    simp only [sgrTail] at h
    split_ifs at h
    intro c hc
    have := sgrParams_mem cs h c hc
    simp [this]

theorem stripAux_mem : ∀ (n : Nat) (s : Str), ∀ c ∈ stripAux n s, c ∈ s := by
  intro n
  induction n with
  | zero => intro s c hc; exact hc
  | succ n ih =>
    intro s c hc
    cases s with
    | nil => exact hc
    | cons d cs =>
      simp only [stripAux] at hc
      split_ifs at hc with hd
      · cases ht : sgrTail cs with
        | none =>
          rw [ht] at hc
          simp only [List.mem_cons] at hc ⊢
          rcases hc with hc | hc
          · exact Or.inl hc
          · exact Or.inr (ih cs c hc)
        | some rest =>
          rw [ht] at hc
          simp only at hc
          exact List.mem_cons_of_mem _ (sgrTail_mem ht c (ih rest c hc))
      · simp only [List.mem_cons] at hc ⊢
        rcases hc with hc | hc
        · exact Or.inl hc
        · exact Or.inr (ih cs c hc)

theorem stripStyling_mem (s : Str) : ∀ c ∈ stripStyling s, c ∈ s :=
  stripAux_mem _ s

/-- The plain-text lines of a joined list of lines without line feeds. -/
theorem plainLines_Join (ls : List Str) (hne : ls ≠ [])
    (hlf : ∀ l ∈ ls, LF ∉ stripStyling l) :
    plainLines (Join ls [LF]) = ls.map stripStyling := by
  unfold plainLines
  rw [stripStyling_Join]
  unfold Join
  apply List.splitOn_intercalate
  · intro l hl
    simp only [List.mem_map] at hl
    obtain ⟨l', hl', rfl⟩ := hl
    exact hlf l' hl'
  · simpa using hne

theorem splitOnP_pieces (p : Char → Bool) : ∀ (xs : Str),
    ∀ piece ∈ xs.splitOnP p, ∀ c ∈ piece, p c = false
  | [] => by simp
  | x :: xs => by
    have ih := splitOnP_pieces p xs
    rw [List.splitOnP_cons]
    split_ifs with hx
    · intro piece hp
      simp only [List.mem_cons] at hp
      rcases hp with rfl | hp
      · simp
      · exact ih piece hp
    · cases hs : xs.splitOnP p with
      | nil => simp [List.modifyHead]
      | cons hd tl =>
        rw [hs] at ih
        intro piece hp
        simp only [List.modifyHead, List.mem_cons] at hp
        rcases hp with rfl | hp
        · intro c hc
          simp only [List.mem_cons] at hc
          rcases hc with rfl | hc
          · simpa using hx
          · exact ih hd (by simp) c hc
        · exact ih piece (by simp [hp])

theorem splitOn_LF_pieces (xs : Str) : ∀ piece ∈ xs.splitOn LF, LF ∉ piece := by
  intro piece hp h
  have := splitOnP_pieces (fun c => c == LF) xs piece hp LF h
  simp at this

/-! ## Scanned and trimmed lines -/

theorem TrimSpace_isInfix (s : Str) : TrimSpace s <:+: s :=
  ( List.rdropWhile_prefix isSpace _).isInfix.trans (List.dropWhile_suffix isSpace).isInfix

theorem dropCR_isPrefix (s : Str) : dropCR s <+: s := by
  unfold dropCR
  split_ifs
  · exact List.dropLast_prefix s
  · exact List.prefix_refl s

theorem mem_rawLines {content p : Str} (h : p ∈ rawLines content) : p ∈ content.splitOn LF := by
  unfold rawLines at h
  simp only at h
  split_ifs at h
  · exact List.mem_of_mem_dropLast h
  · exact h

theorem byteLen_append (a b : Str) : byteLen (a ++ b) = byteLen a + byteLen b := by
  simp [byteLen]

theorem byteLen_le_of_isInfix {a s : Str} (h : a <:+: s) : byteLen a ≤ byteLen s := by
  obtain ⟨u, v, rfl⟩ := h
  simp only [byteLen_append]
  omega

theorem scanTokens_isPrefix (content : Str) : ∀ l ∈ (scanTokens content).1,
    ∃ piece ∈ content.splitOn LF, l <+: piece ∧ byteLen piece < MaxScanTokenSize := by
  intro l hl
  simp only [scanTokens, List.mem_map] at hl
  obtain ⟨piece, hp, rfl⟩ := hl
  have h1 := List.mem_takeWhile_imp hp
  refine ⟨piece, mem_rawLines (List.takeWhile_sublist _ |>.subset hp), dropCR_isPrefix piece, ?_⟩
  simpa [tooLong] using h1

theorem scannedTrimmed_source (content : Str) : ∀ l ∈ scannedTrimmed content,
    l ≠ [] ∧ ∃ piece ∈ content.splitOn LF, ∃ t, l = TrimSpace t ∧ t <+: piece ∧
      byteLen piece < MaxScanTokenSize := by
  intro l hl
  simp only [scannedTrimmed, List.mem_filter, List.mem_map, decide_eq_true_eq] at hl
  obtain ⟨⟨t, ht, rfl⟩, hne⟩ := hl
  obtain ⟨piece, hp, hpre, hlen⟩ := scanTokens_isPrefix content t ht
  exact ⟨hne, piece, hp, t, rfl, hpre, hlen⟩

theorem scannedTrimmed_no_LF (content : Str) : ∀ l ∈ scannedTrimmed content, LF ∉ l := by
  intro l hl h
  obtain ⟨-, piece, hp, t, rfl, hpre, -⟩ := scannedTrimmed_source content l hl
  exact splitOn_LF_pieces content piece hp (hpre.subset ((TrimSpace_isInfix t).subset h))

/-- Every line that the scanner yields is shorter than the buffer of the scanner. -/
theorem scannedTrimmed_short (content : Str) : ∀ l ∈ scannedTrimmed content,
    byteLen l < MaxScanTokenSize := by
  intro l hl
  obtain ⟨-, piece, hp, t, rfl, hpre, hlen⟩ := scannedTrimmed_source content l hl
  have := byteLen_le_of_isInfix ((TrimSpace_isInfix t).trans hpre.isInfix)
  omega

theorem TrimSpace_head {s : Str} {c : Char} {t : Str} (h : TrimSpace s = c :: t) :
    isSpace c = false := by
  unfold TrimSpace at h
  have hp : (s.dropWhile isSpace).rdropWhile isSpace <+: s.dropWhile isSpace :=
    List.rdropWhile_prefix isSpace _
  rw [h] at hp
  obtain ⟨u, hu⟩ := hp
  apply head_dropWhile_not s c
  rw [← hu]
  rfl

theorem TrimSpace_last (s : Str) (hne : TrimSpace s ≠ []) :
    isSpace ((TrimSpace s).getLast hne) = false := by
  have := List.rdropWhile_last_not isSpace (s.dropWhile isSpace) hne
  simpa [TrimSpace] using this

theorem TrimSpace_idem (s : Str) : TrimSpace (TrimSpace s) = TrimSpace s := by
  cases h : TrimSpace s with
  | nil => rfl
  | cons c t =>
    have hc := TrimSpace_head h
    have h1 : (c :: t).dropWhile isSpace = c :: t := by
      simp [List.dropWhile, hc]
    have h2 : (c :: t).rdropWhile isSpace = c :: t := by
      rw [← h]
      unfold TrimSpace
      exact List.rdropWhile_idempotent isSpace _
    unfold TrimSpace
    rw [h1, h2]

theorem dropCR_of_TrimSpace {l : Str} (h : TrimSpace l = l) : dropCR l = l := by
  unfold dropCR
  split_ifs with hl
  · exfalso
    have hne : TrimSpace l ≠ [] := by
      rw [h]; intro e; rw [e] at hl; simp at hl
    have h1 := TrimSpace_last l hne
    have h2 : (TrimSpace l).getLast hne = CR := by
      have : (TrimSpace l).getLast? = some CR := by rw [h]; exact hl
      rw [List.getLast?_eq_getLast _ hne] at this
      simpa using this
    rw [h2] at h1
    revert h1; decide
  · rfl

theorem scannedTrimmed_trimmed (content : Str) : ∀ l ∈ scannedTrimmed content,
    TrimSpace l = l := by
  intro l hl
  obtain ⟨-, piece, hp, t, rfl, hpre, -⟩ := scannedTrimmed_source content l hl
  exact TrimSpace_idem t

theorem TrimSpace_solid {l : Str} (h : TrimSpace l = l) (hne : l ≠ []) :
    ∃ c t, l = c :: t ∧ isSpace c = false := by
  cases l with
  | nil => exact absurd rfl hne
  | cons c t => exact ⟨c, t, rfl, TrimSpace_head h⟩


/-! ## Sorting -/

theorem strLe_refl : ∀ a : Str, strLe a a = true
  | [] => rfl
  | c :: a => by simp [strLe, strLe_refl a]

theorem strLe_total : ∀ a b : Str, strLe a b = true ∨ strLe b a = true
  | [], _ => Or.inl rfl
  | _ :: _, [] => Or.inr rfl
  | c :: a, d :: b => by
    simp only [strLe]
    rcases Nat.lt_trichotomy c.toNat d.toNat with h | h | h
    · simp [h]
    · simp only [h, lt_irrefl, ↓reduceIte]
      exact strLe_total a b
    · simp [h]

theorem strLe_trans : ∀ a b c : Str, strLe a b = true → strLe b c = true → strLe a c = true
  | [], _, _, _, _ => rfl
  | _ :: _, [], _, h, _ => by simp [strLe] at h
  | _ :: _, _ :: _, [], _, h => by simp [strLe] at h
  | x :: a, y :: b, z :: c, h1, h2 => by
    simp only [strLe] at h1 h2 ⊢
    split_ifs at h1 h2 ⊢ <;> try omega
    all_goals first
      | rfl
      | exact strLe_trans a b c h1 h2

theorem strLe_antisymm : ∀ a b : Str, strLe a b = true → strLe b a = true → a = b
  | [], [], _, _ => rfl
  | [], _ :: _, _, h => by simp [strLe] at h
  | _ :: _, [], h, _ => by simp [strLe] at h
  | x :: a, y :: b, h1, h2 => by
    simp only [strLe] at h1 h2
    split_ifs at h1 h2 <;> try omega
    rename_i hxy _ _
    have hx : x = y := Char.ext (UInt32.ext (by simpa [Char.toNat] using hxy))
    rw [hx, strLe_antisymm a b h1 h2]

theorem sortStrings_sorted (l : List Str) :
    (sortStrings l).Sorted (fun a b => strLe a b = true) := by
  haveI : IsTotal Str (fun a b => strLe a b = true) := ⟨strLe_total⟩
  haveI : IsTrans Str (fun a b => strLe a b = true) := ⟨strLe_trans⟩
  exact List.sorted_insertionSort _ l

theorem sortStrings_perm (l : List Str) : (sortStrings l).Perm l :=
  List.perm_insertionSort _ l

theorem mem_sortStrings {l : List Str} {x : Str} : x ∈ sortStrings l ↔ x ∈ l :=
  (sortStrings_perm l).mem_iff

/-- Whatever the sorting algorithm: an ascending rearrangement of the list is `sortStrings`. -/
theorem sortStrings_unique {l l' : List Str} (hp : l'.Perm l)
    (hs : l'.Sorted (fun a b => strLe a b = true)) : l' = sortStrings l := by
  haveI : IsAntisymm Str (fun a b => strLe a b = true) := ⟨strLe_antisymm⟩
  exact List.eq_of_perm_of_sorted (hp.trans (sortStrings_perm l).symm) hs (sortStrings_sorted l)

theorem sortStrings_eq_nil {l : List Str} : sortStrings l = [] ↔ l = [] := by
  constructor
  · intro h
    have := (sortStrings_perm l).length_eq
    rw [h] at this
    exact List.length_eq_zero.mp this.symm
  · rintro rfl; rfl

/-! ## The formatter emits the layout, highlighted -/

theorem highlightSyntax_nil : highlightSyntax [] = [] := rfl

theorem formatLines_eq (config : ShellConfig) :
    formatLines config = (layout config).map highlightSyntax := by
  simp only [formatLines, layout, assemble, List.length_pos, List.nil_append, List.map_append,
    List.map_cons, List.map_nil, ne_eq, sortStrings_eq_nil]
  by_cases hC : config.Comments = [] <;> by_cases hE : config.Exports = [] <;>
    by_cases hA : config.Aliases = [] <;> by_cases hF : config.Functions = [] <;>
    by_cases hO : config.Others = [] <;>
    simp [hC, hE, hA, hF, hO, highlightSyntax_nil]

theorem assemble_ne_nil (c e a f o : List Str) : assemble c e a f o ≠ [] := by
  simp [assemble]

theorem layout_ne_nil (config : ShellConfig) : layout config ≠ [] :=
  assemble_ne_nil _ _ _ _ _

theorem mem_assemble {c e a f o : List Str} {l : Str} (h : l ∈ assemble c e a f o) :
    l = [] ∨ l ∈ ["# Comments".toList, "# Exports".toList, "# Aliases".toList,
      "# Functions".toList, "# Other".toList] ∨
    l ∈ c ++ e ++ a ++ f ++ o := by
  simp only [assemble, List.mem_append, List.mem_cons, List.mem_singleton, List.not_mem_nil,
    or_false] at h ⊢
  have hsep : ∀ (p : Prop) [Decidable p], l ∈ (if p then [[]] else ([] : List Str)) → l = [] := by
    intro p _ hp
    split_ifs at hp
    · simpa using hp
    · simp at hp
  rcases h with ((((((((((h | h) | h) | h) | h) | h) | h) | h) | h) | h) | h) | h
  · simp only [h, true_or, or_true]
  · simp only [h, true_or, or_true]
  · exact Or.inl (hsep _ h)
  · simp only [h, true_or, or_true]
  · simp only [h, true_or, or_true]
  · exact Or.inl (hsep _ h)
  · simp only [h, true_or, or_true]
  · simp only [h, true_or, or_true]
  · exact Or.inl (hsep _ h)
  · simp only [h, true_or, or_true]
  · simp only [h, true_or, or_true]
  · split_ifs at h
    · simp only [List.mem_cons] at h
      rcases h with h | h | h
      · exact Or.inl h
      · simp only [h, true_or, or_true]
      · simp only [h, true_or, or_true]
    · simp at h

theorem mem_layout {config : ShellConfig} {l : Str} (h : l ∈ layout config) :
    l = [] ∨ l ∈ ["# Comments".toList, "# Exports".toList, "# Aliases".toList,
      "# Functions".toList, "# Other".toList] ∨
    l ∈ config.Comments ++ config.Exports ++ config.Aliases ++ config.Functions ++
      config.Others := by
  rcases mem_assemble h with h | h | h
  · exact Or.inl h
  · exact Or.inr (Or.inl h)
  · refine Or.inr (Or.inr ?_)
    simpa only [List.mem_append, mem_sortStrings] using h

/-- Mapping a function that fixes the empty line and the headers over the sections put
together maps the sections. -/
theorem map_assemble (g : Str → Str) (h0 : g [] = [])
    (hh : ∀ l ∈ ["# Comments".toList, "# Exports".toList, "# Aliases".toList,
      "# Functions".toList, "# Other".toList], g l = l) (c e a f o : List Str) :
    (assemble c e a f o).map g = assemble (c.map g) (e.map g) (a.map g) (f.map g) (o.map g) := by
  have h1 := hh "# Comments".toList (by simp)
  have h2 := hh "# Exports".toList (by simp)
  have h3 := hh "# Aliases".toList (by simp)
  have h4 := hh "# Functions".toList (by simp)
  have h5 := hh "# Other".toList (by simp)
  have hsep : ∀ (p : Prop) [Decidable p],
      (if p then [([] : Str)] else []).map g = if p then [[]] else [] := by
    intro p _
    split_ifs <;> simp [h0]
  simp only [assemble, List.map_append, List.map_cons, List.map_nil, h1, h2, h3, h4, hsep,
    ne_eq, List.map_eq_nil_iff]
  congr 1
  split_ifs
  · rfl
  · simp only [List.map_cons, h0, h5]

/-! ## The plain-text view of the output -/

theorem TabExp_mem {s t : Str} (h : TabExp s t) : ∀ c ∈ t, c ∈ s ∨ c = ' ' := by
  induction h with
  | nil => intro c hc; simp at hc
  | keep d _ ih =>
    intro c hc
    simp only [List.mem_cons] at hc ⊢
    rcases hc with hc | hc
    · exact Or.inl (Or.inl hc)
    · rcases ih c hc with h' | h'
      · exact Or.inl (Or.inr h')
      · exact Or.inr h'
  | expand _ ih =>
    intro c hc
    simp only [List.mem_cons] at hc ⊢
    rcases hc with hc | hc | hc | hc | hc
    · exact Or.inr hc
    · exact Or.inr hc
    · exact Or.inr hc
    · exact Or.inr hc
    · rcases ih c hc with h' | h'
      · exact Or.inl (Or.inr h')
      · exact Or.inr h'

theorem plainOf_no_LF {l : Str} (h : LF ∉ l) : LF ∉ plainOf l := by
  intro hm
  rcases TabExp_mem (TabExp_tabsExpanded l) LF (stripStyling_mem _ _ hm) with h' | h'
  · exact h h'
  · revert h'; decide

theorem plainOf_nil : plainOf [] = [] := rfl

theorem plainOf_header : ∀ l ∈ ["# Comments".toList, "# Exports".toList, "# Aliases".toList,
    "# Functions".toList, "# Other".toList], plainOf l = l := by
  decide

/-- The lines that the formatter emits, in the plain-text view, are the lines of the layout as
they read in that view. -/
theorem map_stripStyling_formatLines (config : ShellConfig) :
    (formatLines config).map stripStyling = (layout config).map plainOf := by
  rw [formatLines_eq, List.map_map]
  apply List.map_congr_left
  intro l _
  exact stripStyling_highlightSyntax l

/-- The plain-text lines of the formatted output are the lines of the layout as they read in
the plain-text view, provided no line of the record contains a line feed. -/
theorem plainLines_formatShellConfig (config : ShellConfig)
    (hlf : ∀ l ∈ config.Comments ++ config.Exports ++ config.Aliases ++ config.Functions ++
      config.Others, LF ∉ l) :
    plainLines (formatShellConfig config) = (layout config).map plainOf := by
  unfold formatShellConfig
  rw [plainLines_Join, map_stripStyling_formatLines]
  · rw [formatLines_eq]
    simpa using layout_ne_nil config
  · intro l hl
    have : stripStyling l ∈ (formatLines config).map stripStyling := List.mem_map_of_mem _ hl
    rw [map_stripStyling_formatLines, List.mem_map] at this
    obtain ⟨l', hl', he⟩ := this
    rw [← he]
    apply plainOf_no_LF
    rcases mem_layout hl' with rfl | h | h
    · simp
    · simp only [List.mem_cons, List.mem_singleton, List.not_mem_nil, or_false] at h
      rcases h with rfl | rfl | rfl | rfl | rfl <;> decide
    · exact hlf l' h

/-- On a record whose lines contain no line feed and read as themselves in the plain-text view
(no styling escape sequence, no tab that is converted), the plain-text lines of the formatted
output are the layout. -/
theorem plainLines_formatShellConfig_clean (config : ShellConfig)
    (h : ∀ l ∈ config.Comments ++ config.Exports ++ config.Aliases ++ config.Functions ++
      config.Others, LF ∉ l ∧ hasStyling l = false ∧ tabsExpanded l = l) :
    plainLines (formatShellConfig config) = layout config := by
  rw [plainLines_formatShellConfig config (fun l hl => (h l hl).1)]
  conv_rhs => rw [← List.map_id (layout config)]
  apply List.map_congr_left
  intro l hl
  simp only [id]
  rcases mem_layout hl with rfl | h' | h'
  · rfl
  · exact plainOf_header l h'
  · exact plainOf_eq_self (h l h').2.1 (h l h').2.2


/-! ## What highlighting adds to a line -/

theorem mem_expandTabs : ∀ (s : Str) (c : Char), c ∈ expandTabs s → c ∈ s ∨ c = ' '
  | [], c, h => by simp [expandTabs] at h
  | d :: s, c, h => by
    simp only [expandTabs] at h
    split_ifs at h
    · simp only [List.mem_cons] at h ⊢
      rcases h with h | h | h | h | h
      · exact Or.inr h
      · exact Or.inr h
      · exact Or.inr h
      · exact Or.inr h
      · rcases mem_expandTabs s c h with h' | h'
        · exact Or.inl (Or.inr h')
        · exact Or.inr h'
    · simp only [List.mem_cons] at h ⊢
      rcases h with h | h
      · exact Or.inl (Or.inl h)
      · rcases mem_expandTabs s c h with h' | h'
        · exact Or.inl (Or.inr h')
        · exact Or.inr h'

theorem mem_Render {st : Style} {m : Str} {c : Char} (h : c ∈ st.Render m) :
    c ∈ m ∨ c ∈ styleChars st := by
  simp only [Style.Render, styleChars, List.mem_cons, List.mem_append, List.not_mem_nil,
    or_false] at h ⊢
  have he : c ∈ expandTabs m → c ∈ m ∨ c = ' ' := mem_expandTabs m c
  tauto

theorem mem_replaceAll (st : Style) (re : Str → Option Str) (hre : CleanCut re) :
    ∀ (n : Nat) (s : Str), ∀ c ∈ replaceAll re (fun m => st.Render m) n s,
      c ∈ s ∨ c ∈ styleChars st := by
  intro n
  induction n with
  | zero => intro s c hc; exact Or.inl hc
  | succ n ih =>
    intro s c hc
    cases s with
    | nil => exact Or.inl hc
    | cons d cs =>
      have hcopy : c ∈ d :: replaceAll re (fun m => st.Render m) n cs →
          c ∈ d :: cs ∨ c ∈ styleChars st := by
        intro h
        simp only [List.mem_cons] at h ⊢
        rcases h with h | h
        · exact Or.inl (Or.inl h)
        · rcases ih cs c h with h' | h'
          · exact Or.inl (Or.inr h')
          · exact Or.inr h'
      simp only [replaceAll] at hc
      cases hm : re (d :: cs) with
      | none => rw [hm] at hc; exact hcopy hc
      | some rest =>
        rw [hm] at hc
        simp only at hc
        split_ifs at hc with hlen
        · obtain ⟨m, hm', -, -⟩ := hre _ _ hm
          have htake : (d :: cs).take ((d :: cs).length - rest.length) = m := by
            rw [hm']; simp
          rw [htake, List.mem_append] at hc
          rcases hc with hc | hc
          · rcases mem_Render hc with h | h
            · exact Or.inl (by rw [hm']; simp [h])
            · exact Or.inr h
          · rcases ih rest c hc with h | h
            · exact Or.inl (by rw [hm']; simp [h])
            · exact Or.inr h
        · exact hcopy hc

theorem mem_styleKeyword : ∀ (kws : List Str) (line : Str), ∀ c ∈ styleKeyword kws line,
    c ∈ line ∨ c ∈ styleChars keywordStyle
  | [], _, c, hc => Or.inl hc
  | kw :: kws, line, c, hc => by
    simp only [styleKeyword] at hc
    split_ifs at hc with hp
    · obtain ⟨r, rfl⟩ := List.isPrefixOf_iff_prefix.mp hp
      rw [List.mem_append] at hc
      rcases hc with hc | hc
      · rcases mem_Render hc with h | h
        · exact Or.inl (by simp [h])
        · exact Or.inr h
      · exact Or.inl (List.mem_of_mem_drop hc)
    · exact mem_styleKeyword kws line c hc

/-- A highlighted line contains no line feed unless the line does. -/
theorem highlightSyntax_no_LF {line : Str} (h : LF ∉ line) : LF ∉ highlightSyntax line := by
  have hk : LF ∉ styleKeyword keywords line := by
    intro hc
    rcases mem_styleKeyword _ _ _ hc with h' | h'
    · exact h h'
    · revert h'; decide
  unfold highlightSyntax
  simp only
  split_ifs with hc
  · intro hmem
    rcases mem_Render hmem with h' | h'
    · exact hk h'
    · revert h'; decide
  · intro hmem
    unfold ReplaceAllStringFunc at hmem
    rcases mem_replaceAll pathStyle pathPattern cleanCut_pathPattern _ _ _ hmem with h' | h'
    · rcases mem_replaceAll stringStyle quotedPattern cleanCut_quotedPattern _ _ _ h' with h'' | h''
      · exact hk h''
      · revert h''; decide
    · revert h'; decide

theorem head_replaceAll (st : Style) (re : Str → Option Str) (n : Nat) (c : Char) (cs : Str) :
    ∃ d t, replaceAll re (fun m => st.Render m) n (c :: cs) = d :: t ∧ (d = c ∨ d = ESC) := by
  cases n with
  | zero => exact ⟨c, cs, rfl, Or.inl rfl⟩
  | succ n =>
    simp only [replaceAll]
    cases re (c :: cs) with
    | none => exact ⟨c, _, rfl, Or.inl rfl⟩
    | some rest =>
      simp only
      split_ifs
      · exact ⟨ESC, _, rfl, Or.inr rfl⟩
      · exact ⟨c, _, rfl, Or.inl rfl⟩

theorem head_styleKeyword : ∀ (kws : List Str) (c : Char) (cs : Str),
    ∃ d t, styleKeyword kws (c :: cs) = d :: t ∧ (d = c ∨ d = ESC)
  | [], c, cs => ⟨c, cs, rfl, Or.inl rfl⟩
  | kw :: kws, c, cs => by
    simp only [styleKeyword]
    split_ifs
    · exact ⟨ESC, _, rfl, Or.inr rfl⟩
    · exact head_styleKeyword kws c cs

/-- A highlighted non-empty line starts with the first character of the line or with the escape
character. -/
theorem head_highlightSyntax (c : Char) (cs : Str) :
    ∃ d t, highlightSyntax (c :: cs) = d :: t ∧ (d = c ∨ d = ESC) := by
  obtain ⟨d1, t1, e1, h1⟩ := head_styleKeyword keywords c cs
  unfold highlightSyntax
  simp only
  rw [e1]
  split_ifs
  · exact ⟨ESC, _, rfl, Or.inr rfl⟩
  · unfold ReplaceAllStringFunc
    obtain ⟨d2, t2, e2, h2⟩ := head_replaceAll stringStyle quotedPattern (d1 :: t1).length d1 t1
    rw [e2]
    obtain ⟨d3, t3, e3, h3⟩ := head_replaceAll pathStyle pathPattern (d2 :: t2).length d2 t2
    refine ⟨d3, t3, e3, ?_⟩
    rcases h3 with rfl | rfl
    · rcases h2 with rfl | rfl
      · exact h1
      · exact Or.inr rfl
    · exact Or.inr rfl

theorem isBlank_cons {c : Char} (hc : isSpace c = false) (t : Str) : isBlank (c :: t) = false := by
  simp [isBlank, hc]

theorem isBlank_highlightSyntax {c : Char} (hc : isSpace c = false) (t : Str) :
    isBlank (highlightSyntax (c :: t)) = false := by
  obtain ⟨d, t', e, h⟩ := head_highlightSyntax c t
  rw [e]
  rcases h with rfl | rfl
  · exact isBlank_cons hc _
  · exact isBlank_cons (by decide) _

/-! ## Blank lines -/

theorem okFrom_cons_solid (b : Bool) {l : Str} (hl : isBlank l = false) (ls : List Str) :
    okFrom b (l :: ls) = okFrom false ls := by
  simp [okFrom, hl]

theorem okFrom_solid_append : ∀ (S : List Str), (∀ l ∈ S, isBlank l = false) →
    ∀ rest, okFrom false (S ++ rest) = okFrom false rest
  | [], _, _ => rfl
  | l :: S, h, rest => by
    rw [List.cons_append, okFrom_cons_solid false (h l (by simp)),
      okFrom_solid_append S (fun l' hl' => h l' (by simp [hl'])) rest]

theorem okFrom_separator (p : Prop) [Decidable p] {l : Str} (hl : isBlank l = false)
    (ls : List Str) :
    okFrom false ((if p then [[]] else []) ++ l :: ls) = okFrom false ls := by
  have h0 : isBlank ([] : Str) = true := rfl
  split_ifs
  · simp only [List.singleton_append, okFrom, h0, hl]
    simp
  · simp only [List.nil_append, okFrom, hl]
    simp

theorem okFrom_spec : ∀ (ls : List Str) (b : Bool), okFrom b ls = true →
    (∀ l, ls.head? = some l → ¬ (b = true ∧ isBlank l = true)) ∧
    (∀ l, (b :: ls.map isBlank).getLast? = some l → l = false) ∧
    ls.Chain' (fun x y => ¬ (isBlank x = true ∧ isBlank y = true))
  | [], b, h => by
    simp only [okFrom, Bool.not_eq_true'] at h
    simp [h]
  | l :: ls, b, h => by
    simp only [okFrom, Bool.and_eq_true, Bool.not_eq_true', Bool.and_eq_false_imp] at h
    obtain ⟨ih1, ih2, ih3⟩ := okFrom_spec ls (isBlank l) h.2
    refine ⟨?_, ?_, ?_⟩
    · intro l' hl'
      simp only [List.head?_cons, Option.some.injEq] at hl'
      subst hl'
      rintro ⟨hb, hl⟩
      have := h.1 hb
      rw [hl] at this
      cases this
    · intro x hx
      apply ih2 x
      rw [List.map_cons, List.getLast?_cons_cons] at hx
      exact hx
    · rw [List.chain'_cons']
      exact ⟨fun y hy => by
        intro hh
        exact ih1 y (by simpa using hy) hh, ih3⟩

theorem okFrom_map_highlightSyntax : ∀ (ls : List Str),
    (∀ l ∈ ls, isBlank (highlightSyntax l) = isBlank l) → ∀ b,
    okFrom b (ls.map highlightSyntax) = okFrom b ls
  | [], _, _ => rfl
  | l :: ls, h, b => by
    simp only [List.map_cons, okFrom]
    rw [h l (by simp), okFrom_map_highlightSyntax ls (fun l' hl' => h l' (by simp [hl']))]

theorem okFrom_layout (config : ShellConfig)
    (h : ∀ l ∈ config.Comments ++ config.Exports ++ config.Aliases ++ config.Functions ++
      config.Others, isBlank l = false) :
    okFrom true (layout config) = true := by
  have hC : ∀ l ∈ config.Comments, isBlank l = false := fun l hl => h l (by simp [hl])
  have hE : ∀ l ∈ sortStrings config.Exports, isBlank l = false :=
    fun l hl => h l (by simp [mem_sortStrings.mp hl])
  have hA : ∀ l ∈ sortStrings config.Aliases, isBlank l = false :=
    fun l hl => h l (by simp [mem_sortStrings.mp hl])
  have hF : ∀ l ∈ sortStrings config.Functions, isBlank l = false :=
    fun l hl => h l (by simp [mem_sortStrings.mp hl])
  have hO : ∀ l ∈ config.Others, isBlank l = false := fun l hl => h l (by simp [hl])
  have h1 : isBlank "# Comments".toList = false := by decide
  have h2 : isBlank "# Exports".toList = false := by decide
  have h3 : isBlank "# Aliases".toList = false := by decide
  have h4 : isBlank "# Functions".toList = false := by decide
  have h5 : isBlank "# Other".toList = false := by decide
  unfold layout assemble
  simp only [List.append_assoc, List.singleton_append, List.cons_append, List.nil_append]
  rw [okFrom_cons_solid true h1, okFrom_solid_append _ hC, okFrom_separator _ h2,
    okFrom_solid_append _ hE, okFrom_separator _ h3, okFrom_solid_append _ hA,
    okFrom_separator _ h4, okFrom_solid_append _ hF]
  split_ifs
  · have h0 : isBlank ([] : Str) = true := rfl
    have : okFrom false ([] :: "# Other".toList :: config.Others)
        = okFrom false (config.Others ++ []) := by
      simp only [okFrom, h0, h5, List.append_nil]
      simp
    rw [this, okFrom_solid_append _ hO]
    rfl
  · rfl


/-! ## The formatter on a classified file -/

theorem parseShellConfig_lines (path content : Str) :
    ∀ l ∈ (parseShellConfig path content).1.Comments ++
      (parseShellConfig path content).1.Exports ++
      (parseShellConfig path content).1.Aliases ++ (parseShellConfig path content).1.Functions ++
      (parseShellConfig path content).1.Others, l ∈ scannedTrimmed content := by
  intro l hl
  rw [parseShellConfig_eq] at hl
  simp only [List.mem_append, List.mem_filter] at hl
  rcases hl with (((h | h) | h) | h) | h <;> exact h.1

theorem scannedTrimmed_solid (content : Str) : ∀ l ∈ scannedTrimmed content,
    ∃ c t, l = c :: t ∧ isSpace c = false := by
  intro l hl
  have h1 := scannedTrimmed_trimmed content l hl
  have h2 := (scannedTrimmed_source content l hl).1
  exact TrimSpace_solid h1 h2

theorem layout_no_LF (path content : Str) :
    ∀ l ∈ layout (parseShellConfig path content).1, LF ∉ l := by
  intro l hl
  rcases mem_layout hl with rfl | h | h
  · simp
  · simp only [List.mem_cons, List.mem_singleton, List.not_mem_nil, or_false] at h
    rcases h with rfl | rfl | rfl | rfl | rfl <;> decide
  · exact scannedTrimmed_no_LF content l (parseShellConfig_lines path content l h)

theorem layout_blank (path content : Str) :
    ∀ l ∈ layout (parseShellConfig path content).1,
      isBlank (highlightSyntax l) = isBlank l := by
  intro l hl
  have key : ∀ (c : Char) (t : Str), isSpace c = false →
      isBlank (highlightSyntax (c :: t)) = isBlank (c :: t) := by
    intro c t hc
    rw [isBlank_highlightSyntax hc, isBlank_cons hc]
  rcases mem_layout hl with rfl | h | h
  · rfl
  · simp only [List.mem_cons, List.mem_singleton, List.not_mem_nil, or_false] at h
    rcases h with rfl | rfl | rfl | rfl | rfl <;> exact key _ _ (by decide)
  · obtain ⟨c, t, rfl, hc⟩ :=
      scannedTrimmed_solid content l (parseShellConfig_lines path content l h)
    exact key c t hc

theorem splitOn_formatShellConfig (path content : Str) :
    (formatShellConfig (parseShellConfig path content).1).splitOn LF
      = formatLines (parseShellConfig path content).1 := by
  unfold formatShellConfig Join
  apply List.splitOn_intercalate
  · intro l hl
    rw [formatLines_eq] at hl
    simp only [List.mem_map] at hl
    obtain ⟨l', hl', rfl⟩ := hl
    exact highlightSyntax_no_LF (layout_no_LF path content l' hl')
  · rw [formatLines_eq]
    simpa using layout_ne_nil _

/-- C5. Separator minimality: for every input file, the output of
`formatShellConfig (parseShellConfig file)`, split on newlines, has a first line and a last
line that are not blank, and no two consecutive lines of it are blank (a blank line being one
that is empty or white space only).  The record is the one that `parseShellConfig` returns,
whether or not it comes with an error of the scanner. -/
theorem separator_minimality (path content : Str) :
    (formatShellConfig (parseShellConfig path content).1).splitOn LF ≠ [] ∧
    (∀ l, ((formatShellConfig (parseShellConfig path content).1).splitOn LF).head? = some l →
      isBlank l = false) ∧
    (∀ l, ((formatShellConfig (parseShellConfig path content).1).splitOn LF).getLast? = some l →
      isBlank l = false) ∧
    ((formatShellConfig (parseShellConfig path content).1).splitOn LF).Chain'
      (fun x y => ¬ (isBlank x = true ∧ isBlank y = true)) := by
  rw [splitOn_formatShellConfig]
  have hne : formatLines (parseShellConfig path content).1 ≠ [] := by
    rw [formatLines_eq]
    simpa using layout_ne_nil _
  have hok : okFrom true (formatLines (parseShellConfig path content).1) = true := by
    rw [formatLines_eq, okFrom_map_highlightSyntax _ (layout_blank path content)]
    apply okFrom_layout
    intro l hl
    obtain ⟨c, t, rfl, hc⟩ :=
      scannedTrimmed_solid content l (parseShellConfig_lines path content l hl)
    exact isBlank_cons hc t
  obtain ⟨h1, h2, h3⟩ := okFrom_spec _ _ hok
  refine ⟨hne, ?_, ?_, h3⟩
  · intro l hl
    have := h1 l hl
    simpa using this
  · intro l hl
    apply h2
    cases hfl : formatLines (parseShellConfig path content).1 with
    | nil => exact absurd hfl hne
    | cons a as =>
      rw [hfl] at hl
      rw [List.map_cons, List.getLast?_cons_cons, ← List.map_cons, List.getLast?_map, hl]
      rfl

/-! ## Sections of the plain-text output -/

theorem modifyHead_append {f : Str → Str} : ∀ (u v : List Str), u ≠ [] →
    List.modifyHead f (u ++ v) = List.modifyHead f u ++ v
  | [], _, h => absurd rfl h
  | _ :: _, _, _ => rfl

theorem splitOn_append_LF (b : Str) : ∀ (a : Str),
    (a ++ LF :: b).splitOn LF = a.splitOn LF ++ b.splitOn LF
  | [] => by
    simp only [List.splitOn, List.nil_append, List.splitOnP_cons, beq_self_eq_true, if_true,
      List.splitOnP_nil, List.singleton_append]
  | x :: a => by
    have ih := splitOn_append_LF b a
    simp only [List.splitOn] at ih ⊢
    rw [List.cons_append, List.splitOnP_cons, List.splitOnP_cons, ih]
    split_ifs
    · rfl
    · rw [modifyHead_append _ _ (List.splitOnP_ne_nil _ _)]

theorem splitOn_Join : ∀ (ls : List Str), ls ≠ [] →
    (Join ls [LF]).splitOn LF = ls.flatMap (fun l => l.splitOn LF)
  | [], h => absurd rfl h
  | [l], _ => by simp [Join_singleton]
  | a :: b :: ls, _ => by
    have ih := splitOn_Join (b :: ls) (by simp)
    rw [Join_cons_cons, List.append_assoc, List.singleton_append, splitOn_append_LF, ih]
    rfl

theorem flatMap_splitOn_of_no_LF : ∀ (ls : List Str), (∀ l ∈ ls, LF ∉ l) →
    ls.flatMap (fun l => l.splitOn LF) = ls
  | [], _ => rfl
  | l :: ls, h => by
    have h1 : l.splitOn LF = [l] := by
      have := List.splitOn_intercalate [l] LF (by simpa using h l (by simp)) (by simp)
      simpa [List.intercalate] using this
    rw [List.flatMap_cons, h1, flatMap_splitOn_of_no_LF ls (fun l' hl' => h l' (by simp [hl']))]
    rfl

/-- Splitting the lines of the sections put together splits the lines of each section. -/
theorem flatMap_assemble (c e a f o : List Str) :
    (assemble c e a f o).flatMap (fun l => l.splitOn LF)
      = assemble (c.flatMap (fun l => l.splitOn LF)) (e.flatMap (fun l => l.splitOn LF))
          (a.flatMap (fun l => l.splitOn LF)) (f.flatMap (fun l => l.splitOn LF))
          (o.flatMap (fun l => l.splitOn LF)) := by
  have hnil : ∀ l : List Str, l.flatMap (fun l => l.splitOn LF) = [] ↔ l = [] := by
    intro l
    cases l with
    | nil => simp
    | cons x xs =>
      simp only [List.flatMap_cons, List.append_eq_nil, reduceCtorEq, iff_false, not_and]
      intro h
      exact absurd h (List.splitOnP_ne_nil _ _)
  have h0 : ([] : Str).splitOn LF = [[]] := rfl
  have h1 : "# Comments".toList.splitOn LF = ["# Comments".toList] := by decide
  have h2 : "# Exports".toList.splitOn LF = ["# Exports".toList] := by decide
  have h3 : "# Aliases".toList.splitOn LF = ["# Aliases".toList] := by decide
  have h4 : "# Functions".toList.splitOn LF = ["# Functions".toList] := by decide
  have h5 : "# Other".toList.splitOn LF = ["# Other".toList] := by decide
  have hsep : ∀ (p : Prop) [Decidable p],
      (if p then [([] : Str)] else []).flatMap (fun l => l.splitOn LF)
        = if p then [[]] else [] := by
    intro p _
    split_ifs <;> simp [h0]
  simp only [assemble, List.flatMap_append, List.flatMap_cons, List.flatMap_nil, h1, h2, h3, h4,
    hsep, ne_eq, hnil, List.append_nil]
  congr 1
  split_ifs
  · rfl
  · simp only [List.flatMap_cons, h0, h5, List.singleton_append]

/-- The plain-text lines of the formatted output of any record: the sections put together, each
line read in the plain-text view and split at its line feeds. -/
theorem plainLines_formatShellConfig_sections (config : ShellConfig) :
    plainLines (formatShellConfig config)
      = assemble ((config.Comments.map plainOf).flatMap (fun l => l.splitOn LF))
          (((sortStrings config.Exports).map plainOf).flatMap (fun l => l.splitOn LF))
          (((sortStrings config.Aliases).map plainOf).flatMap (fun l => l.splitOn LF))
          (((sortStrings config.Functions).map plainOf).flatMap (fun l => l.splitOn LF))
          ((config.Others.map plainOf).flatMap (fun l => l.splitOn LF)) := by
  unfold plainLines formatShellConfig
  rw [stripStyling_Join, splitOn_Join, map_stripStyling_formatLines]
  · unfold layout
    rw [map_assemble plainOf plainOf_nil plainOf_header, flatMap_assemble]
  · rw [formatLines_eq]
    simpa using layout_ne_nil config

/-- The sorted bucket, read in the plain-text view and split at line feeds, is the sorted
bucket when its lines contain no line feed, no styling escape sequence and no tab that is
converted. -/
theorem section_clean (bucket : List Str)
    (h : ∀ l ∈ bucket, LF ∉ l ∧ hasStyling l = false ∧ tabsExpanded l = l) :
    ((sortStrings bucket).map plainOf).flatMap (fun l => l.splitOn LF) = sortStrings bucket := by
  have h1 : (sortStrings bucket).map plainOf = sortStrings bucket := by
    conv_rhs => rw [← List.map_id (sortStrings bucket)]
    apply List.map_congr_left
    intro l hl
    have := h l (mem_sortStrings.mp hl)
    exact plainOf_eq_self this.2.1 this.2.2
  rw [h1]
  exact flatMap_splitOn_of_no_LF _ (fun l hl => (h l (mem_sortStrings.mp hl)).1)


/-! ## The output for a file -/

/-- For every file, the plain-text lines of the output are the sections put together, each line
of the record read in the plain-text view. -/
theorem plainLines_parseShellConfig (path content : Str) :
    plainLines (formatShellConfig (parseShellConfig path content).1)
      = assemble ((parseShellConfig path content).1.Comments.map plainOf)
          ((sortStrings (parseShellConfig path content).1.Exports).map plainOf)
          ((sortStrings (parseShellConfig path content).1.Aliases).map plainOf)
          ((sortStrings (parseShellConfig path content).1.Functions).map plainOf)
          ((parseShellConfig path content).1.Others.map plainOf) := by
  rw [plainLines_formatShellConfig _ (fun l hl =>
    scannedTrimmed_no_LF content l (parseShellConfig_lines path content l hl))]
  unfold layout
  rw [map_assemble plainOf plainOf_nil plainOf_header]

theorem parseShellConfig_clean (path content : Str)
    (hc : ∀ l ∈ scannedTrimmed content, hasStyling l = false ∧ tabsExpanded l = l) :
    ∀ l ∈ (parseShellConfig path content).1.Comments ++
      (parseShellConfig path content).1.Exports ++
      (parseShellConfig path content).1.Aliases ++ (parseShellConfig path content).1.Functions ++
      (parseShellConfig path content).1.Others,
      LF ∉ l ∧ hasStyling l = false ∧ tabsExpanded l = l := by
  intro l hl
  have := parseShellConfig_lines path content l hl
  exact ⟨scannedTrimmed_no_LF content l this, hc l this⟩

theorem filter_separator (p : Prop) [Decidable p] :
    (if p then [([] : Str)] else []).filter (fun l => l ≠ []) = [] := by
  split_ifs <;> simp

theorem filter_layout (config : ShellConfig)
    (h : ∀ l ∈ config.Comments ++ config.Exports ++ config.Aliases ++ config.Functions ++
      config.Others, l ≠ []) :
    (layout config).filter (fun l => l ≠ []) = contentLines config := by
  have hC : config.Comments.filter (fun l => l ≠ []) = config.Comments :=
    List.filter_eq_self.mpr (fun l hl => by simpa using h l (by simp [hl]))
  have hE : (sortStrings config.Exports).filter (fun l => l ≠ []) = sortStrings config.Exports :=
    List.filter_eq_self.mpr (fun l hl => by simpa using h l (by simp [mem_sortStrings.mp hl]))
  have hA : (sortStrings config.Aliases).filter (fun l => l ≠ []) = sortStrings config.Aliases :=
    List.filter_eq_self.mpr (fun l hl => by simpa using h l (by simp [mem_sortStrings.mp hl]))
  have hF : (sortStrings config.Functions).filter (fun l => l ≠ [])
      = sortStrings config.Functions :=
    List.filter_eq_self.mpr (fun l hl => by simpa using h l (by simp [mem_sortStrings.mp hl]))
  have hO : config.Others.filter (fun l => l ≠ []) = config.Others :=
    List.filter_eq_self.mpr (fun l hl => by simpa using h l (by simp [hl]))
  have h1 : ["# Comments".toList].filter (fun l => l ≠ []) = ["# Comments".toList] := by decide
  have h2 : ["# Exports".toList].filter (fun l => l ≠ []) = ["# Exports".toList] := by decide
  have h3 : ["# Aliases".toList].filter (fun l => l ≠ []) = ["# Aliases".toList] := by decide
  have h4 : ["# Functions".toList].filter (fun l => l ≠ []) = ["# Functions".toList] := by decide
  unfold layout assemble contentLines
  simp only [List.filter_append, hC, hE, hA, hF, h1, h2, h3, h4, filter_separator,
    List.append_nil]
  congr 1
  split_ifs with hO'
  · have h5 : "# Other".toList ≠ [] := by decide
    simp only [List.filter_cons, ne_eq, not_true_eq_false, decide_False, Bool.false_eq_true,
      ↓reduceIte, h5, not_false_eq_true, decide_True, hO]
  · rfl

theorem contentLines_perm (path content : Str) :
    (contentLines (parseShellConfig path content).1).Perm
      (headerLines (parseShellConfig path content).1 ++ scannedTrimmed content) := by
  have hp := (five_filters_perm (scannedTrimmed content)).symm
  have hparse := parseShellConfig_eq path content
  rw [List.perm_iff_count] at hp ⊢
  intro a
  have hpa := hp a
  have e1 := (sortStrings_perm (parseShellConfig path content).1.Exports).count_eq a
  have e2 := (sortStrings_perm (parseShellConfig path content).1.Aliases).count_eq a
  have e3 := (sortStrings_perm (parseShellConfig path content).1.Functions).count_eq a
  have f1 : (parseShellConfig path content).1.Exports
      = (scannedTrimmed content).filter (fun l => exportPattern l) := by rw [hparse]
  have f2 : (parseShellConfig path content).1.Aliases
      = (scannedTrimmed content).filter (fun l => aliasPattern l) := by rw [hparse]
  have f3 : (parseShellConfig path content).1.Functions
      = (scannedTrimmed content).filter (fun l => functionPattern l) := by rw [hparse]
  have f4 : (parseShellConfig path content).1.Comments
      = (scannedTrimmed content).filter (fun l => commentPattern l) := by rw [hparse]
  have f5 : (parseShellConfig path content).1.Others
      = (scannedTrimmed content).filter (fun l => otherLine l) := by rw [hparse]
  rw [← f1, ← f2, ← f3, ← f4, ← f5] at hpa
  unfold contentLines headerLines
  simp only [List.count_append] at hpa ⊢
  rw [e1, e2, e3, hpa]
  split_ifs with hO
  · simp only [List.count_cons, List.count_nil]
    omega
  · have hO' : (parseShellConfig path content).1.Others = [] := by simpa using hO
    simp only [List.count_cons, List.count_nil, hO']
    omega


/-- C2, amended. For every input file, the plain-text lines of
`formatShellConfig (parseShellConfig file)` are the sections put together: the four headers
`# Comments`, `# Exports`, `# Aliases`, `# Functions` always, `# Other` exactly when the other
bucket is non-empty, and after each header the lines of the bucket as they read in the
plain-text view (`plainOf`, the highlighted line without its styling). When the file is read without error and no non-empty trimmed line of it holds a
styling escape sequence or a tab that `Render` converts, the plain-text lines are the layout,
and once the blank separator lines are removed they are, as a multiset, the synthesized headers
together with the non-empty trimmed lines of the input. -/
theorem output_content (path content : Str) :
    plainLines (formatShellConfig (parseShellConfig path content).1)
      = assemble ((parseShellConfig path content).1.Comments.map plainOf)
          ((sortStrings (parseShellConfig path content).1.Exports).map plainOf)
          ((sortStrings (parseShellConfig path content).1.Aliases).map plainOf)
          ((sortStrings (parseShellConfig path content).1.Functions).map plainOf)
          ((parseShellConfig path content).1.Others.map plainOf) ∧
    (∀ l, plainOf l = stripStyling (highlightSyntax l)) ∧
    ((parseShellConfig path content).2 = none →
      (∀ l ∈ nonEmptyTrimmed content, hasStyling l = false ∧ tabsExpanded l = l) →
      plainLines (formatShellConfig (parseShellConfig path content).1)
        = layout (parseShellConfig path content).1 ∧
      (((plainLines (formatShellConfig (parseShellConfig path content).1)).filter
          (fun l => l ≠ []) : List Str) : Multiset Str)
        = (headerLines (parseShellConfig path content).1 : Multiset Str)
          + (nonEmptyTrimmed content : Multiset Str)) := by
  refine ⟨plainLines_parseShellConfig path content,
    fun l => (stripStyling_highlightSyntax l).symm, fun herr hc => ?_⟩
  have heq := scannedTrimmed_of_no_error herr
  have h1 := plainLines_formatShellConfig_clean _
    (parseShellConfig_clean path content (by rw [heq]; exact hc))
  refine ⟨h1, ?_⟩
  rw [h1, filter_layout, Multiset.coe_add, Multiset.coe_eq_coe, ← heq]
  · exact contentLines_perm path content
  · intro l hl
    exact (scannedTrimmed_source content l (parseShellConfig_lines path content l hl)).1

/-- C3, amended. For every ClassifiedFile whose export, alias and function lines contain no line
feed, no styling escape sequence and no tab that `Render` converts, the plain-text lines of
`formatShellConfig` are the sections put together, in which the lines after the `# Exports`
header (and likewise after `# Aliases` and `# Functions`), up to the blank separator line or the
next header, are the lines of `sortStrings` of the bucket: in ascending byte-wise
lexicographic order and a permutation of the bucket. Nothing is asked of the comment lines and
the other lines. -/
theorem sorted_sections (config : ShellConfig)
    (h : ∀ l ∈ config.Exports ++ config.Aliases ++ config.Functions,
      LF ∉ l ∧ hasStyling l = false ∧ tabsExpanded l = l) :
    (∃ cs os : List Str, (cs = [] ↔ config.Comments = []) ∧ (os = [] ↔ config.Others = []) ∧
      plainLines (formatShellConfig config)
        = assemble cs (sortStrings config.Exports) (sortStrings config.Aliases)
            (sortStrings config.Functions) os) ∧
    (sortStrings config.Exports).Sorted (fun a b => strLe a b = true) ∧
    (sortStrings config.Exports).Perm config.Exports ∧
    (sortStrings config.Aliases).Sorted (fun a b => strLe a b = true) ∧
    (sortStrings config.Aliases).Perm config.Aliases ∧
    (sortStrings config.Functions).Sorted (fun a b => strLe a b = true) ∧
    (sortStrings config.Functions).Perm config.Functions := by
  have hnil : ∀ ls : List Str,
      (ls.map plainOf).flatMap (fun l => l.splitOn LF) = [] ↔ ls = [] := by
    intro ls
    cases ls with
    | nil => simp
    | cons x xs =>
      simp only [List.map_cons, List.flatMap_cons, List.append_eq_nil, reduceCtorEq, iff_false,
        not_and]
      intro h'
      exact absurd h' (List.splitOnP_ne_nil _ _)
  refine ⟨⟨_, _, hnil config.Comments, hnil config.Others, ?_⟩, sortStrings_sorted _,
    sortStrings_perm _, sortStrings_sorted _, sortStrings_perm _, sortStrings_sorted _,
    sortStrings_perm _⟩
  rw [plainLines_formatShellConfig_sections,
    section_clean config.Exports (fun l hl => h l (by simp [hl])),
    section_clean config.Aliases (fun l hl => h l (by simp [hl])),
    section_clean config.Functions (fun l hl => h l (by simp [hl]))]

/-- C4, amended. For every input file, the lines of the Comments section and of the
Other section in the plain-text output of `formatShellConfig (parseShellConfig file)` appear
in the same relative order as the corresponding lines appear in the input file: each section
is, line by line, the plain-text reading (`plainOf`) of the trimmed lines that the scanner
has yielded (the first lines of the file, all of them when no error is returned) and that are
classified as comment, respectively other, in the order of the file. When the file is read
without error and the comment lines and other lines hold no styling escape sequence and no tab
that `Render` converts, each section is exactly the subsequence of trimmed input lines
classified as comment, respectively other. -/
theorem preserved_order (path content : Str) :
    plainLines (formatShellConfig (parseShellConfig path content).1)
      = assemble ((parseShellConfig path content).1.Comments.map plainOf)
          ((sortStrings (parseShellConfig path content).1.Exports).map plainOf)
          ((sortStrings (parseShellConfig path content).1.Aliases).map plainOf)
          ((sortStrings (parseShellConfig path content).1.Functions).map plainOf)
          ((parseShellConfig path content).1.Others.map plainOf) ∧
    (∀ l, plainOf l = stripStyling (highlightSyntax l)) ∧
    (parseShellConfig path content).1.Comments
      = (scannedTrimmed content).filter (fun l => commentPattern l) ∧
    (parseShellConfig path content).1.Others
      = (scannedTrimmed content).filter (fun l => otherLine l) ∧
    scannedTrimmed content <+: nonEmptyTrimmed content ∧
    ((parseShellConfig path content).2 = none →
      (∀ l ∈ (parseShellConfig path content).1.Comments ++
        (parseShellConfig path content).1.Others, hasStyling l = false ∧ tabsExpanded l = l) →
      plainLines (formatShellConfig (parseShellConfig path content).1)
        = assemble ((nonEmptyTrimmed content).filter (fun l => commentPattern l))
            ((sortStrings (parseShellConfig path content).1.Exports).map plainOf)
            ((sortStrings (parseShellConfig path content).1.Aliases).map plainOf)
            ((sortStrings (parseShellConfig path content).1.Functions).map plainOf)
            ((nonEmptyTrimmed content).filter (fun l => otherLine l))) := by
  have hC : (parseShellConfig path content).1.Comments
      = (scannedTrimmed content).filter (fun l => commentPattern l) := by
    rw [parseShellConfig_eq]
  have hO : (parseShellConfig path content).1.Others
      = (scannedTrimmed content).filter (fun l => otherLine l) := by
    rw [parseShellConfig_eq]
  refine ⟨plainLines_parseShellConfig path content,
    fun l => (stripStyling_highlightSyntax l).symm, hC, hO, scannedTrimmed_isPrefix content,
    fun herr hc => ?_⟩
  have hmap : ∀ ls : List Str, (∀ l ∈ ls, hasStyling l = false ∧ tabsExpanded l = l) →
      ls.map plainOf = ls := by
    intro ls hls
    conv_rhs => rw [← List.map_id ls]
    apply List.map_congr_left
    intro l hl
    exact plainOf_eq_self (hls l hl).1 (hls l hl).2
  rw [plainLines_parseShellConfig, hmap _ (fun l hl => hc l (by simp [hl])),
    hmap (parseShellConfig path content).1.Others (fun l hl => hc l (by simp [hl])),
    hC, hO, scannedTrimmed_of_no_error herr]


/-! ## Formatting the formatted output again -/

theorem exportPattern_eq_kind (l : Str) : exportPattern l = decide (kind l = 0) := by
  unfold kind
  by_cases hE : exportPattern l = true
  · simp [hE]
  · by_cases hA : aliasPattern l = true
    · simp [hE, hA]
    · by_cases hF : functionPattern l = true
      · simp [hE, hA, hF]
      · by_cases hC : commentPattern l = true <;> simp [hE, hA, hF, hC]

theorem aliasPattern_eq_kind (l : Str) : aliasPattern l = decide (kind l = 1) := by
  unfold kind
  by_cases hE : exportPattern l = true
  · simp [hE, export_not_alias hE]
  · by_cases hA : aliasPattern l = true
    · simp [hE, hA]
    · by_cases hF : functionPattern l = true
      · simp [hE, hA, hF]
      · by_cases hC : commentPattern l = true <;> simp [hE, hA, hF, hC]

theorem functionPattern_eq_kind (l : Str) : functionPattern l = decide (kind l = 2) := by
  unfold kind
  by_cases hE : exportPattern l = true
  · simp [hE, export_not_function hE]
  · by_cases hA : aliasPattern l = true
    · simp [hE, hA, alias_not_function hA]
    · by_cases hF : functionPattern l = true
      · simp [hE, hA, hF]
      · by_cases hC : commentPattern l = true <;> simp [hE, hA, hF, hC]

theorem commentPattern_eq_kind (l : Str) : commentPattern l = decide (kind l = 3) := by
  unfold kind
  by_cases hE : exportPattern l = true
  · simp [hE, export_not_comment hE]
  · by_cases hA : aliasPattern l = true
    · simp [hE, hA, alias_not_comment hA]
    · by_cases hF : functionPattern l = true
      · simp [hE, hA, hF, function_not_comment hF]
      · by_cases hC : commentPattern l = true <;> simp [hE, hA, hF, hC]

theorem otherLine_eq_kind (l : Str) : otherLine l = decide (kind l = 4) := by
  unfold kind otherLine
  by_cases hE : exportPattern l = true
  · simp [hE]
  · by_cases hA : aliasPattern l = true
    · simp [hE, hA]
    · by_cases hF : functionPattern l = true
      · simp [hE, hA, hF]
      · by_cases hC : commentPattern l = true <;> simp [hE, hA, hF, hC]

theorem filter_kind (X : List Str) (j k : Nat) (h : ∀ l ∈ X, kind l = j) :
    X.filter (fun l => decide (kind l = k)) = if j = k then X else [] := by
  split_ifs with hjk
  · apply List.filter_eq_self.mpr
    intro l hl
    simp [h l hl, hjk]
  · apply List.filter_eq_nil_iff.mpr
    intro l hl
    simp [h l hl, hjk]

/-- The buckets of a classified file, by the number of the switch case. -/
theorem parseShellConfig_kind (path content : Str) :
    (∀ l ∈ (parseShellConfig path content).1.Exports, kind l = 0) ∧
    (∀ l ∈ (parseShellConfig path content).1.Aliases, kind l = 1) ∧
    (∀ l ∈ (parseShellConfig path content).1.Functions, kind l = 2) ∧
    (∀ l ∈ (parseShellConfig path content).1.Comments, kind l = 3) ∧
    (∀ l ∈ (parseShellConfig path content).1.Others, kind l = 4) := by
  rw [parseShellConfig_eq]
  simp only [List.mem_filter, exportPattern_eq_kind, aliasPattern_eq_kind,
    functionPattern_eq_kind, commentPattern_eq_kind, otherLine_eq_kind, decide_eq_true_eq]
  exact ⟨fun l h => h.2, fun l h => h.2, fun l h => h.2, fun l h => h.2, fun l h => h.2⟩

theorem filter_contentLines (config : ShellConfig)
    (hE : ∀ l ∈ config.Exports, kind l = 0) (hA : ∀ l ∈ config.Aliases, kind l = 1)
    (hF : ∀ l ∈ config.Functions, kind l = 2) (hC : ∀ l ∈ config.Comments, kind l = 3)
    (hO : ∀ l ∈ config.Others, kind l = 4) (k : Nat) :
    (contentLines config).filter (fun l => decide (kind l = k)) =
      (if 3 = k then ["# Comments".toList] ++ config.Comments else []) ++
      (if 3 = k then ["# Exports".toList] else []) ++
      (if 0 = k then sortStrings config.Exports else []) ++
      (if 3 = k then ["# Aliases".toList] else []) ++
      (if 1 = k then sortStrings config.Aliases else []) ++
      (if 3 = k then ["# Functions".toList] else []) ++
      (if 2 = k then sortStrings config.Functions else []) ++
      (if config.Others ≠ [] then
        (if 3 = k then ["# Other".toList] else []) ++ (if 4 = k then config.Others else [])
       else []) := by
  have hE' : ∀ l ∈ sortStrings config.Exports, kind l = 0 :=
    fun l hl => hE l (mem_sortStrings.mp hl)
  have hA' : ∀ l ∈ sortStrings config.Aliases, kind l = 1 :=
    fun l hl => hA l (mem_sortStrings.mp hl)
  have hF' : ∀ l ∈ sortStrings config.Functions, kind l = 2 :=
    fun l hl => hF l (mem_sortStrings.mp hl)
  have h1 : ∀ l ∈ ["# Comments".toList] ++ config.Comments, kind l = 3 := by
    intro l hl
    simp only [List.singleton_append, List.mem_cons] at hl
    rcases hl with rfl | hl
    · decide
    · exact hC l hl
  have h2 : ∀ l ∈ ["# Exports".toList], kind l = 3 := by decide
  have h3 : ∀ l ∈ ["# Aliases".toList], kind l = 3 := by decide
  have h4 : ∀ l ∈ ["# Functions".toList], kind l = 3 := by decide
  have h5 : ∀ l ∈ ["# Other".toList], kind l = 3 := by decide
  unfold contentLines
  simp only [List.filter_append, filter_kind _ _ k h1, filter_kind _ _ k h2,
    filter_kind _ _ k h3, filter_kind _ _ k h4, filter_kind _ _ k hE', filter_kind _ _ k hA',
    filter_kind _ _ k hF']
  congr 1
  split_ifs with hne
  all_goals first
    | rfl
    | (rw [← List.singleton_append, List.filter_append, filter_kind _ _ k h5,
        filter_kind _ _ k hO]
       simp_all)

theorem stripStyling_formatShellConfig_clean (config : ShellConfig)
    (h : ∀ l ∈ config.Comments ++ config.Exports ++ config.Aliases ++ config.Functions ++
      config.Others, hasStyling l = false ∧ tabsExpanded l = l) :
    stripStyling (formatShellConfig config) = Join (layout config) [LF] := by
  unfold formatShellConfig
  rw [formatLines_eq, stripStyling_Join, List.map_map]
  congr 1
  conv_rhs => rw [← List.map_id (layout config)]
  apply List.map_congr_left
  intro l hl
  simp only [Function.comp, id]
  rw [stripStyling_highlightSyntax]
  rcases mem_layout hl with rfl | h' | h'
  · rfl
  · exact plainOf_header l h'
  · exact plainOf_eq_self (h l h').1 (h l h').2

theorem layout_trimmed (path content : Str) :
    ∀ l ∈ layout (parseShellConfig path content).1, TrimSpace l = l := by
  intro l hl
  rcases mem_layout hl with rfl | h | h
  · rfl
  · simp only [List.mem_cons, List.mem_singleton, List.not_mem_nil, or_false] at h
    rcases h with rfl | rfl | rfl | rfl | rfl <;> decide
  · exact scannedTrimmed_trimmed content l (parseShellConfig_lines path content l h)

/-- Every line of the layout of a file is shorter than the buffer of the scanner. -/
theorem layout_short (path content : Str) :
    ∀ l ∈ layout (parseShellConfig path content).1, tooLong l = false := by
  intro l hl
  rcases mem_layout hl with rfl | h | h
  · decide
  · simp only [List.mem_cons, List.mem_singleton, List.not_mem_nil, or_false] at h
    rcases h with rfl | rfl | rfl | rfl | rfl <;> decide
  · have := scannedTrimmed_short content l (parseShellConfig_lines path content l h)
    simpa [tooLong] using this

theorem parseShellConfig_solid (path content : Str) :
    ∀ l ∈ (parseShellConfig path content).1.Comments ++
      (parseShellConfig path content).1.Exports ++
      (parseShellConfig path content).1.Aliases ++ (parseShellConfig path content).1.Functions ++
      (parseShellConfig path content).1.Others, isBlank l = false := by
  intro l hl
  obtain ⟨c, t, rfl, hc⟩ :=
    scannedTrimmed_solid content l (parseShellConfig_lines path content l hl)
  exact isBlank_cons hc t

theorem rawLines_Join_layout (path content : Str) :
    rawLines (Join (layout (parseShellConfig path content).1) [LF])
      = layout (parseShellConfig path content).1 := by
  have hsplit : (Join (layout (parseShellConfig path content).1) [LF]).splitOn LF
      = layout (parseShellConfig path content).1 :=
    List.splitOn_intercalate _ LF (layout_no_LF path content) (layout_ne_nil _)
  have hlast : (layout (parseShellConfig path content).1).getLast? ≠ some [] := by
    intro hl
    have hok := okFrom_layout _ (parseShellConfig_solid path content)
    obtain ⟨-, h2, -⟩ := okFrom_spec _ _ hok
    cases hfl : layout (parseShellConfig path content).1 with
    | nil => rw [hfl] at hl; simp at hl
    | cons a as =>
      rw [hfl] at hl h2
      have := h2 true (by
        rw [List.map_cons, List.getLast?_cons_cons, ← List.map_cons, List.getLast?_map, hl]
        rfl)
      cases this
  unfold rawLines
  simp only [hsplit, hlast, ↓reduceIte]

/-- The scanner reads the plain-text output of a file without error and yields the lines of
the layout. -/
theorem scanTokens_Join_layout (path content : Str) :
    scanTokens (Join (layout (parseShellConfig path content).1) [LF])
      = (layout (parseShellConfig path content).1, none) := by
  have hall : ∀ p ∈ layout (parseShellConfig path content).1, (!tooLong p) = true := by
    intro p hp
    rw [layout_short path content p hp]
    rfl
  unfold scanTokens
  rw [rawLines_Join_layout, List.takeWhile_eq_self_iff.mpr hall,
    if_pos (List.all_eq_true.mpr hall)]
  congr 1
  conv_rhs => rw [← List.map_id (layout (parseShellConfig path content).1)]
  apply List.map_congr_left
  intro l hl
  exact dropCR_of_TrimSpace (layout_trimmed path content l hl)

theorem parseShellConfig_snd (path content : Str) :
    (parseShellConfig path content).2 = (scanTokens content).2 := rfl

theorem scannedTrimmed_Join_layout (path content : Str) :
    scannedTrimmed (Join (layout (parseShellConfig path content).1) [LF])
      = contentLines (parseShellConfig path content).1 := by
  unfold scannedTrimmed
  rw [scanTokens_Join_layout]
  have : (layout (parseShellConfig path content).1).map TrimSpace
      = layout (parseShellConfig path content).1 := by
    conv_rhs => rw [← List.map_id (layout (parseShellConfig path content).1)]
    exact List.map_congr_left (layout_trimmed path content)
  simp only
  rw [this]
  apply filter_layout
  intro l hl
  exact (scannedTrimmed_source content l (parseShellConfig_lines path content l hl)).1

/-- Classifying the plain-text output of a classified file: no error, and the header lines
have joined the comments. -/
theorem parseShellConfig_Join_layout (path content : Str) :
    parseShellConfig path (Join (layout (parseShellConfig path content).1) [LF])
      = (reclassified (parseShellConfig path content).1, none) := by
  obtain ⟨hE, hA, hF, hC, hO⟩ := parseShellConfig_kind path content
  have key := filter_contentLines (parseShellConfig path content).1 hE hA hF hC hO
  have herr : (parseShellConfig path
      (Join (layout (parseShellConfig path content).1) [LF])).2 = none := by
    rw [parseShellConfig_snd, scanTokens_Join_layout]
  apply Prod.ext _ herr
  simp only
  rw [parseShellConfig_eq path (Join _ _), scannedTrimmed_Join_layout]
  have e0 : (fun l => exportPattern l) = (fun l => decide (kind l = 0)) :=
    funext exportPattern_eq_kind
  have e1 : (fun l => aliasPattern l) = (fun l => decide (kind l = 1)) :=
    funext aliasPattern_eq_kind
  have e2 : (fun l => functionPattern l) = (fun l => decide (kind l = 2)) :=
    funext functionPattern_eq_kind
  have e3 : (fun l => commentPattern l) = (fun l => decide (kind l = 3)) :=
    funext commentPattern_eq_kind
  have e4 : (fun l => otherLine l) = (fun l => decide (kind l = 4)) :=
    funext otherLine_eq_kind
  have k0 := key 0
  have k1 := key 1
  have k2 := key 2
  have k3 := key 3
  have k4 := key 4
  simp only [OfNat.ofNat_ne_zero, OfNat.zero_ne_ofNat, ↓reduceIte, List.nil_append,
    List.append_nil, Nat.reduceEqDiff, Nat.succ_ne_self, one_ne_zero, zero_ne_one,
    OfNat.one_ne_ofNat, OfNat.ofNat_ne_one, ite_self] at k0 k1 k2 k3 k4
  rw [e0, e1, e2, e3, e4, k0, k1, k2, k3, k4]
  have hparse := parseShellConfig_eq path content
  unfold reclassified
  rw [hparse]
  simp only [ShellConfig.mk.injEq, true_and]
  refine ⟨?_, ?_⟩
  · simp only [List.append_assoc, List.cons_append, List.nil_append]
  · split_ifs with h
    · rfl
    · simpa using h


theorem length_sortStrings (l : List Str) : (sortStrings l).length = l.length :=
  (sortStrings_perm l).length_eq

theorem sortStrings_idem (l : List Str) : sortStrings (sortStrings l) = sortStrings l :=
  (sortStrings_sorted l).insertionSort_eq

theorem length_layout_reclassified (config : ShellConfig) :
    (layout config).length < (layout (reclassified config)).length := by
  unfold layout assemble reclassified
  simp only [sortStrings_idem, List.length_append, List.length_cons, List.length_nil,
    length_sortStrings, ne_eq, sortStrings_eq_nil]
  by_cases hC : config.Comments = [] <;> by_cases hE : config.Exports = [] <;>
    by_cases hA : config.Aliases = [] <;> by_cases hF : config.Functions = [] <;>
    by_cases hO : config.Others = [] <;>
    simp [hC, hE, hA, hF, hO] <;> omega

theorem reclassified_clean (path content : Str)
    (hclean : ∀ l ∈ (parseShellConfig path content).1.Comments ++
      (parseShellConfig path content).1.Exports ++
      (parseShellConfig path content).1.Aliases ++ (parseShellConfig path content).1.Functions ++
      (parseShellConfig path content).1.Others,
      LF ∉ l ∧ hasStyling l = false ∧ tabsExpanded l = l) :
    ∀ l ∈ (reclassified (parseShellConfig path content).1).Comments ++
      (reclassified (parseShellConfig path content).1).Exports ++
      (reclassified (parseShellConfig path content).1).Aliases ++
      (reclassified (parseShellConfig path content).1).Functions ++
      (reclassified (parseShellConfig path content).1).Others,
      LF ∉ l ∧ hasStyling l = false ∧ tabsExpanded l = l := by
  intro l hl
  simp only [reclassified, List.mem_append, List.mem_cons, List.mem_singleton,
    List.not_mem_nil, or_false, mem_sortStrings] at hl
  rcases hl with ((((((h | h) | h) | h) | h) | h) | h) | h
  · subst h; decide
  · exact hclean l (by simp [h])
  · rcases h with rfl | rfl | rfl <;> decide
  · split_ifs at h
    · simp only [List.mem_singleton] at h
      subst h; decide
    · simp at h
  · exact hclean l (by simp [h])
  · exact hclean l (by simp [h])
  · exact hclean l (by simp [h])
  · exact hclean l (by simp [h])

/-- C6, amended. Formatting is not idempotent on the plain-text view, because the headers of the
first pass are read as comments by the second.  For every input file of which no classified
line (no line of the five buckets) holds a styling escape sequence or a tab that `Render`
converts: classifying the styling-stripped output again succeeds without error and gives the
first record with its exports, aliases and functions sorted, the same other lines, and the
comments `# Comments`, the first comments, `# Exports`, `# Aliases`, `# Functions` (and
`# Other` if there are other lines); the plain-text lines of the second output are the layout
of that record; and the second styling-stripped blob differs from the first. -/
theorem reformat (path content : Str)
    (hc : ∀ l ∈ (parseShellConfig path content).1.Comments ++
      (parseShellConfig path content).1.Exports ++
      (parseShellConfig path content).1.Aliases ++ (parseShellConfig path content).1.Functions ++
      (parseShellConfig path content).1.Others, hasStyling l = false ∧ tabsExpanded l = l) :
    parseShellConfig path (stripStyling (formatShellConfig (parseShellConfig path content).1))
      = (reclassified (parseShellConfig path content).1, none) ∧
    plainLines (formatShellConfig (parseShellConfig path
        (stripStyling (formatShellConfig (parseShellConfig path content).1))).1)
      = layout (reclassified (parseShellConfig path content).1) ∧
    stripStyling (formatShellConfig (parseShellConfig path
        (stripStyling (formatShellConfig (parseShellConfig path content).1))).1)
      ≠ stripStyling (formatShellConfig (parseShellConfig path content).1) := by
  have h1 : parseShellConfig path
      (stripStyling (formatShellConfig (parseShellConfig path content).1))
      = (reclassified (parseShellConfig path content).1, none) := by
    rw [stripStyling_formatShellConfig_clean _ hc]
    exact parseShellConfig_Join_layout path content
  have hclean : ∀ l ∈ (parseShellConfig path content).1.Comments ++
      (parseShellConfig path content).1.Exports ++
      (parseShellConfig path content).1.Aliases ++ (parseShellConfig path content).1.Functions ++
      (parseShellConfig path content).1.Others,
      LF ∉ l ∧ hasStyling l = false ∧ tabsExpanded l = l := fun l hl =>
    ⟨scannedTrimmed_no_LF content l (parseShellConfig_lines path content l hl), hc l hl⟩
  have h2 := plainLines_formatShellConfig_clean _ (reclassified_clean path content hclean)
  have h3 := plainLines_formatShellConfig_clean _ hclean
  refine ⟨h1, by rw [h1]; exact h2, ?_⟩
  rw [h1]
  intro heq
  have hlines : plainLines (formatShellConfig (reclassified (parseShellConfig path content).1))
      = plainLines (formatShellConfig (parseShellConfig path content).1) := by
    unfold plainLines
    rw [heq]
  rw [h2, h3] at hlines
  have := length_layout_reclassified (parseShellConfig path content).1
  rw [hlines] at this
  exact lt_irrefl _ this


/-! ## A file with a line that the scanner cannot hold -/

theorem byteLen_replicate (n : Nat) : byteLen (List.replicate n 'x') = n := by
  induction n with
  | zero => rfl
  | succ n ih =>
    have h1 : runeLen 'x' = 1 := by decide
    show runeLen 'x' + byteLen (List.replicate n 'x') = n + 1
    omega

theorem splitOn_of_no_LF {l : Str} (h : LF ∉ l) : l.splitOn LF = [l] := by
  have := flatMap_splitOn_of_no_LF [l] (by simpa using h)
  simpa using this

theorem rawLines_three (X : Str) (hX : LF ∉ X) :
    rawLines ("# first\n".toList ++ X ++ "\n# last\n".toList)
      = ["# first".toList, X, "# last".toList] := by
  have e : "# first\n".toList ++ X ++ "\n# last\n".toList
      = "# first".toList ++ LF :: (X ++ LF :: ("# last".toList ++ LF :: [])) := rfl
  have h1 : "# first".toList.splitOn LF = ["# first".toList] := by decide
  have h2 : "# last".toList.splitOn LF = ["# last".toList] := by decide
  have h3 : ([] : Str).splitOn LF = [[]] := rfl
  unfold rawLines
  simp only
  rw [e, splitOn_append_LF, splitOn_append_LF, splitOn_append_LF, h1, h2, h3,
    splitOn_of_no_LF hX]
  rfl

theorem scanTokens_three (X : Str) (hX : LF ∉ X) (hlen : MaxScanTokenSize ≤ byteLen X) :
    scanTokens ("# first\n".toList ++ X ++ "\n# last\n".toList)
      = (["# first".toList], some ScanError.ErrTooLong) := by
  have t1 : tooLong "# first".toList = false := by decide
  have t2 : tooLong X = true := by simp [tooLong, hlen]
  have d1 : dropCR "# first".toList = "# first".toList := by decide
  unfold scanTokens
  rw [rawLines_three X hX]
  simp only [List.takeWhile, List.all_cons, t1, t2, Bool.not_false, Bool.not_true,
    Bool.true_and, Bool.false_and, List.map_cons, List.map_nil, d1, Bool.false_eq_true,
    if_false]

theorem no_LF_replicate (n : Nat) : LF ∉ List.replicate n 'x' := by
  intro h
  have := (List.mem_replicate.mp h).2
  revert this
  decide

theorem scanTokens_longFile :
    scanTokens longFile = (["# first".toList], some ScanError.ErrTooLong) :=
  scanTokens_three _ (no_LF_replicate _) (le_of_eq (byteLen_replicate _).symm)

theorem mem_nonEmptyTrimmed_longFile : "# last".toList ∈ nonEmptyTrimmed longFile := by
  unfold nonEmptyTrimmed physicalLines longFile
  rw [rawLines_three _ (no_LF_replicate _)]
  refine List.mem_filter.mpr ⟨List.mem_map.mpr ⟨dropCR "# last".toList,
    List.mem_map.mpr ⟨"# last".toList, ?_, rfl⟩, by decide⟩, by decide⟩
  exact List.mem_cons_of_mem _ (List.mem_cons_of_mem _ (List.mem_cons_self _ _))

theorem parseShellConfig_longFile (path : Str) :
    parseShellConfig path longFile
      = ({ FilePath := path, FileType := detectFileType path, Lines := [], Exports := [],
           Aliases := [], Functions := [], Comments := ["# first".toList], Others := [] },
         some ScanError.ErrTooLong) := by
  unfold parseShellConfig
  rw [scanTokens_longFile]
  rfl


/-! ## Instances and counterexamples -/

set_option maxRecDepth 100000 in
theorem parseShellConfig_partition_witness :
    (parseShellConfig ".bashrc".toList "export A=1\r\n  # hi\n\nls -l\nalias g=git\n".toList).2
      = none ∧
    (((parseShellConfig ".bashrc".toList
          "export A=1\r\n  # hi\n\nls -l\nalias g=git\n".toList).1.Exports : Multiset Str) +
        (parseShellConfig ".bashrc".toList
          "export A=1\r\n  # hi\n\nls -l\nalias g=git\n".toList).1.Aliases +
        (parseShellConfig ".bashrc".toList
          "export A=1\r\n  # hi\n\nls -l\nalias g=git\n".toList).1.Functions +
        (parseShellConfig ".bashrc".toList
          "export A=1\r\n  # hi\n\nls -l\nalias g=git\n".toList).1.Comments +
        (parseShellConfig ".bashrc".toList
          "export A=1\r\n  # hi\n\nls -l\nalias g=git\n".toList).1.Others
      = (nonEmptyTrimmed "export A=1\r\n  # hi\n\nls -l\nalias g=git\n".toList
          : Multiset Str)) :=
  ⟨by decide, (parseShellConfig_partition _ _).2.2 (by decide)⟩

/-- C1, as stated, fails on `longFile`, whose second line has 65536 bytes: the scanner stops at
that line with `ErrTooLong`, and `parseShellConfig` returns the error together with the buckets
filled so far, which hold `# first` only; the non-empty trimmed line `# last` is in no
bucket. -/
theorem parseShellConfig_partition_fails :
    (parseShellConfig ".bashrc".toList longFile).2 = some ScanError.ErrTooLong ∧
    (parseShellConfig ".bashrc".toList longFile).1.Comments = ["# first".toList] ∧
    (parseShellConfig ".bashrc".toList longFile).1.Exports = [] ∧
    (parseShellConfig ".bashrc".toList longFile).1.Aliases = [] ∧
    (parseShellConfig ".bashrc".toList longFile).1.Functions = [] ∧
    (parseShellConfig ".bashrc".toList longFile).1.Others = [] ∧
    "# last".toList ∈ nonEmptyTrimmed longFile ∧
    ¬ (((parseShellConfig ".bashrc".toList longFile).1.Exports : Multiset Str) +
        (parseShellConfig ".bashrc".toList longFile).1.Aliases +
        (parseShellConfig ".bashrc".toList longFile).1.Functions +
        (parseShellConfig ".bashrc".toList longFile).1.Comments +
        (parseShellConfig ".bashrc".toList longFile).1.Others
      = (nonEmptyTrimmed longFile : Multiset Str)) := by
  rw [parseShellConfig_longFile]
  refine ⟨rfl, rfl, rfl, rfl, rfl, rfl, mem_nonEmptyTrimmed_longFile, ?_⟩
  intro heq
  have hm : "# last".toList ∈ (nonEmptyTrimmed longFile : Multiset Str) :=
    Multiset.mem_coe.mpr mem_nonEmptyTrimmed_longFile
  rw [← heq] at hm
  simp only [Multiset.coe_add, List.append_nil, List.nil_append, Multiset.mem_coe,
    List.mem_singleton] at hm
  revert hm
  decide

set_option maxRecDepth 100000 in
theorem output_content_witness :
    (parseShellConfig ".bashrc".toList
      "export PATH=/usr/bin\necho\thi\nalias ll='ls -la'\n# hi\n".toList).2 = none ∧
    (∀ l ∈ nonEmptyTrimmed "export PATH=/usr/bin\necho\thi\nalias ll='ls -la'\n# hi\n".toList,
      hasStyling l = false ∧ tabsExpanded l = l) ∧
    (plainLines (formatShellConfig (parseShellConfig ".bashrc".toList
        "export PATH=/usr/bin\necho\thi\nalias ll='ls -la'\n# hi\n".toList).1)
      = layout (parseShellConfig ".bashrc".toList
        "export PATH=/usr/bin\necho\thi\nalias ll='ls -la'\n# hi\n".toList).1 ∧
    (((plainLines (formatShellConfig (parseShellConfig ".bashrc".toList
        "export PATH=/usr/bin\necho\thi\nalias ll='ls -la'\n# hi\n".toList).1)).filter
        (fun l => l ≠ []) : List Str) : Multiset Str)
      = (headerLines (parseShellConfig ".bashrc".toList
          "export PATH=/usr/bin\necho\thi\nalias ll='ls -la'\n# hi\n".toList).1 : Multiset Str)
        + (nonEmptyTrimmed "export PATH=/usr/bin\necho\thi\nalias ll='ls -la'\n# hi\n".toList
            : Multiset Str)) :=
  ⟨by decide, by decide, (output_content _ _).2.2 (by decide) (by decide)⟩

set_option maxRecDepth 100000 in
/-- C2, as stated, fails on two files that are read without error. The first holds a comment as
the formatter writes it, with its styling: the line starts with the escape character, lands in
the other bucket, and reads `# hi` in the plain-text view, which is not the input line. The
second holds no escape sequence but a comment with a tab, which `Render` writes as four
spaces. -/
theorem output_content_fails :
    ((parseShellConfig ".bashrc".toList "\x1b[38;2;98;114;164m# hi\x1b[0m\n".toList).2 = none ∧
      nonEmptyTrimmed "\x1b[38;2;98;114;164m# hi\x1b[0m\n".toList
        = ["\x1b[38;2;98;114;164m# hi\x1b[0m".toList] ∧
      plainLines (formatShellConfig (parseShellConfig ".bashrc".toList
          "\x1b[38;2;98;114;164m# hi\x1b[0m\n".toList).1)
        = ["# Comments".toList, "# Exports".toList, "# Aliases".toList, "# Functions".toList,
           [], "# Other".toList, "# hi".toList] ∧
      ¬ ((((plainLines (formatShellConfig (parseShellConfig ".bashrc".toList
            "\x1b[38;2;98;114;164m# hi\x1b[0m\n".toList).1)).filter
            (fun l => l ≠ []) : List Str) : Multiset Str)
          = (headerLines (parseShellConfig ".bashrc".toList
              "\x1b[38;2;98;114;164m# hi\x1b[0m\n".toList).1 : Multiset Str)
            + (nonEmptyTrimmed "\x1b[38;2;98;114;164m# hi\x1b[0m\n".toList : Multiset Str))) ∧
    ((parseShellConfig ".bashrc".toList "#\ttabbed comment\n".toList).2 = none ∧
      hasStyling "#\ttabbed comment\n".toList = false ∧
      nonEmptyTrimmed "#\ttabbed comment\n".toList = ["#\ttabbed comment".toList] ∧
      plainLines (formatShellConfig (parseShellConfig ".bashrc".toList
          "#\ttabbed comment\n".toList).1)
        = ["# Comments".toList, "#    tabbed comment".toList, "# Exports".toList,
           "# Aliases".toList, "# Functions".toList] ∧
      ¬ ((((plainLines (formatShellConfig (parseShellConfig ".bashrc".toList
            "#\ttabbed comment\n".toList).1)).filter
            (fun l => l ≠ []) : List Str) : Multiset Str)
          = (headerLines (parseShellConfig ".bashrc".toList
              "#\ttabbed comment\n".toList).1 : Multiset Str)
            + (nonEmptyTrimmed "#\ttabbed comment\n".toList : Multiset Str))) := by
  refine ⟨⟨by decide, by decide, by decide, ?_⟩, ⟨by decide, by decide, by decide, by decide, ?_⟩⟩
  · intro hp
    rw [Multiset.coe_add, Multiset.coe_eq_coe] at hp
    have hmem := hp.mem_iff (a := "\x1b[38;2;98;114;164m# hi\x1b[0m".toList)
    revert hmem
    decide
  · intro hp
    rw [Multiset.coe_add, Multiset.coe_eq_coe] at hp
    have hmem := hp.mem_iff (a := "#\ttabbed comment".toList)
    revert hmem
    decide

set_option maxRecDepth 100000 in
theorem sorted_sections_witness :
    (∀ l ∈ (parseShellConfig ".bashrc".toList
        "# \x1b[1mTODO\x1b[0m\nexport B=2\nexport A=1\nalias g='a b'\n".toList).1.Exports ++
        (parseShellConfig ".bashrc".toList
        "# \x1b[1mTODO\x1b[0m\nexport B=2\nexport A=1\nalias g='a b'\n".toList).1.Aliases ++
        (parseShellConfig ".bashrc".toList
        "# \x1b[1mTODO\x1b[0m\nexport B=2\nexport A=1\nalias g='a b'\n".toList).1.Functions,
      LF ∉ l ∧ hasStyling l = false ∧ tabsExpanded l = l) ∧
    ((∃ cs os : List Str,
      (cs = [] ↔ (parseShellConfig ".bashrc".toList
        "# \x1b[1mTODO\x1b[0m\nexport B=2\nexport A=1\nalias g='a b'\n".toList).1.Comments = []) ∧
      (os = [] ↔ (parseShellConfig ".bashrc".toList
        "# \x1b[1mTODO\x1b[0m\nexport B=2\nexport A=1\nalias g='a b'\n".toList).1.Others = []) ∧
      plainLines (formatShellConfig (parseShellConfig ".bashrc".toList
        "# \x1b[1mTODO\x1b[0m\nexport B=2\nexport A=1\nalias g='a b'\n".toList).1)
        = assemble cs
            (sortStrings (parseShellConfig ".bashrc".toList
        "# \x1b[1mTODO\x1b[0m\nexport B=2\nexport A=1\nalias g='a b'\n".toList).1.Exports)
            (sortStrings (parseShellConfig ".bashrc".toList
        "# \x1b[1mTODO\x1b[0m\nexport B=2\nexport A=1\nalias g='a b'\n".toList).1.Aliases)
            (sortStrings (parseShellConfig ".bashrc".toList
        "# \x1b[1mTODO\x1b[0m\nexport B=2\nexport A=1\nalias g='a b'\n".toList).1.Functions) os) ∧
    (sortStrings (parseShellConfig ".bashrc".toList
        "# \x1b[1mTODO\x1b[0m\nexport B=2\nexport A=1\nalias g='a b'\n".toList).1.Exports).Sorted (fun a b => strLe a b = true) ∧
    (sortStrings (parseShellConfig ".bashrc".toList
        "# \x1b[1mTODO\x1b[0m\nexport B=2\nexport A=1\nalias g='a b'\n".toList).1.Exports).Perm
      (parseShellConfig ".bashrc".toList
        "# \x1b[1mTODO\x1b[0m\nexport B=2\nexport A=1\nalias g='a b'\n".toList).1.Exports ∧
    (sortStrings (parseShellConfig ".bashrc".toList
        "# \x1b[1mTODO\x1b[0m\nexport B=2\nexport A=1\nalias g='a b'\n".toList).1.Aliases).Sorted (fun a b => strLe a b = true) ∧
    (sortStrings (parseShellConfig ".bashrc".toList
        "# \x1b[1mTODO\x1b[0m\nexport B=2\nexport A=1\nalias g='a b'\n".toList).1.Aliases).Perm
      (parseShellConfig ".bashrc".toList
        "# \x1b[1mTODO\x1b[0m\nexport B=2\nexport A=1\nalias g='a b'\n".toList).1.Aliases ∧
    (sortStrings (parseShellConfig ".bashrc".toList
        "# \x1b[1mTODO\x1b[0m\nexport B=2\nexport A=1\nalias g='a b'\n".toList).1.Functions).Sorted (fun a b => strLe a b = true) ∧
    (sortStrings (parseShellConfig ".bashrc".toList
        "# \x1b[1mTODO\x1b[0m\nexport B=2\nexport A=1\nalias g='a b'\n".toList).1.Functions).Perm
      (parseShellConfig ".bashrc".toList
        "# \x1b[1mTODO\x1b[0m\nexport B=2\nexport A=1\nalias g='a b'\n".toList).1.Functions) :=
  ⟨by decide, sorted_sections _ (by decide)⟩

set_option maxRecDepth 100000 in
/-- C3, as stated, fails on two ClassifiedFiles. In the first an export line holds a styling
escape sequence: the bucket is sorted as it is (the escape character is smaller than `a`), so in
the plain-text view `export A=z` stands before `export A=a`, and the lines between the header
`# Exports` and the header `# Aliases` end with the blank separator. In the second no line
holds an escape sequence, but an alias holds a tab inside quotes, which `Render` writes as four
spaces: the line of the section is not a line of the bucket. -/
theorem sorted_sections_fails :
    ((parseShellConfig ".bashrc".toList
          "export A=\x1b[0mz\nexport A=a\nalias g=git\n".toList).1.Exports
        = ["export A=\x1b[0mz".toList, "export A=a".toList] ∧
      plainLines (formatShellConfig (parseShellConfig ".bashrc".toList
          "export A=\x1b[0mz\nexport A=a\nalias g=git\n".toList).1)
        = ["# Comments".toList, "# Exports".toList, "export A=z".toList, "export A=a".toList,
           [], "# Aliases".toList, "alias g=git".toList, "# Functions".toList] ∧
      strLe "export A=z".toList "export A=a".toList = false ∧
      ¬ ["export A=z".toList, "export A=a".toList].Perm
          ["export A=\x1b[0mz".toList, "export A=a".toList]) ∧
    ((parseShellConfig ".bashrc".toList "alias t='a\tb'\n".toList).1.Aliases
        = ["alias t='a\tb'".toList] ∧
      hasStyling "alias t='a\tb'".toList = false ∧
      plainLines (formatShellConfig (parseShellConfig ".bashrc".toList
          "alias t='a\tb'\n".toList).1)
        = ["# Comments".toList, "# Exports".toList, "# Aliases".toList,
           "alias t='a    b'".toList, "# Functions".toList] ∧
      ¬ ["alias t='a    b'".toList].Perm ["alias t='a\tb'".toList]) := by
  refine ⟨⟨by decide, by decide, by decide, ?_⟩, ⟨by decide, by decide, by decide, ?_⟩⟩
  · intro hp
    have hmem := hp.mem_iff (a := "export A=z".toList)
    revert hmem
    decide
  · intro hp
    have hmem := hp.mem_iff (a := "alias t='a    b'".toList)
    revert hmem
    decide

set_option maxRecDepth 100000 in
theorem preserved_order_witness :
    (parseShellConfig ".bashrc".toList
        "# first\ngreet() \x7b\n  echo hi\n\x7d\n# second\nexport T='a\tb'\n".toList).2 = none ∧
    (∀ l ∈ (parseShellConfig ".bashrc".toList
        "# first\ngreet() \x7b\n  echo hi\n\x7d\n# second\nexport T='a\tb'\n".toList).1.Comments ++
        (parseShellConfig ".bashrc".toList
        "# first\ngreet() \x7b\n  echo hi\n\x7d\n# second\nexport T='a\tb'\n".toList).1.Others,
      hasStyling l = false ∧ tabsExpanded l = l) ∧
    plainLines (formatShellConfig (parseShellConfig ".bashrc".toList
        "# first\ngreet() \x7b\n  echo hi\n\x7d\n# second\nexport T='a\tb'\n".toList).1)
      = assemble
          ((nonEmptyTrimmed
            "# first\ngreet() \x7b\n  echo hi\n\x7d\n# second\nexport T='a\tb'\n".toList).filter
            (fun l => commentPattern l))
          ((sortStrings (parseShellConfig ".bashrc".toList
        "# first\ngreet() \x7b\n  echo hi\n\x7d\n# second\nexport T='a\tb'\n".toList).1.Exports).map plainOf)
          ((sortStrings (parseShellConfig ".bashrc".toList
        "# first\ngreet() \x7b\n  echo hi\n\x7d\n# second\nexport T='a\tb'\n".toList).1.Aliases).map plainOf)
          ((sortStrings (parseShellConfig ".bashrc".toList
        "# first\ngreet() \x7b\n  echo hi\n\x7d\n# second\nexport T='a\tb'\n".toList).1.Functions).map plainOf)
          ((nonEmptyTrimmed
            "# first\ngreet() \x7b\n  echo hi\n\x7d\n# second\nexport T='a\tb'\n".toList).filter
            (fun l => otherLine l)) :=
  ⟨by decide, by decide, (preserved_order _ _).2.2.2.2.2 (by decide) (by decide)⟩

set_option maxRecDepth 100000 in
/-- C4, as stated, fails on two files that are read without error: the sections keep the order
of the input, but they are not exactly the trimmed input lines. In the first the comment holds
styling escape sequences and the Comments section of the plain-text output is `# TODO`; in the
second the comment holds a tab, which `Render` writes as four spaces. -/
theorem preserved_order_fails :
    ((parseShellConfig ".bashrc".toList "# \x1b[1mTODO\x1b[0m\nls\n".toList).2 = none ∧
      (nonEmptyTrimmed "# \x1b[1mTODO\x1b[0m\nls\n".toList).filter (fun l => commentPattern l)
        = ["# \x1b[1mTODO\x1b[0m".toList] ∧
      plainLines (formatShellConfig (parseShellConfig ".bashrc".toList
          "# \x1b[1mTODO\x1b[0m\nls\n".toList).1)
        = ["# Comments".toList, "# TODO".toList, "# Exports".toList, "# Aliases".toList,
           "# Functions".toList, [], "# Other".toList, "ls".toList] ∧
      "# TODO".toList ∉ nonEmptyTrimmed "# \x1b[1mTODO\x1b[0m\nls\n".toList) ∧
    ((parseShellConfig ".bashrc".toList "# a\tb\n# c\n".toList).2 = none ∧
      hasStyling "# a\tb\n# c\n".toList = false ∧
      (nonEmptyTrimmed "# a\tb\n# c\n".toList).filter (fun l => commentPattern l)
        = ["# a\tb".toList, "# c".toList] ∧
      plainLines (formatShellConfig (parseShellConfig ".bashrc".toList
          "# a\tb\n# c\n".toList).1)
        = ["# Comments".toList, "# a    b".toList, "# c".toList, "# Exports".toList,
           "# Aliases".toList, "# Functions".toList] ∧
      "# a    b".toList ∉ nonEmptyTrimmed "# a\tb\n# c\n".toList) := by
  decide

set_option maxRecDepth 100000 in
theorem reformat_witness :
    (∀ l ∈ (parseShellConfig ".zshrc".toList
        "export B=2\nalias g=git\n# note\nexport A=1\necho hi\n".toList).1.Comments ++
        (parseShellConfig ".zshrc".toList
        "export B=2\nalias g=git\n# note\nexport A=1\necho hi\n".toList).1.Exports ++
        (parseShellConfig ".zshrc".toList
        "export B=2\nalias g=git\n# note\nexport A=1\necho hi\n".toList).1.Aliases ++
        (parseShellConfig ".zshrc".toList
        "export B=2\nalias g=git\n# note\nexport A=1\necho hi\n".toList).1.Functions ++
        (parseShellConfig ".zshrc".toList
        "export B=2\nalias g=git\n# note\nexport A=1\necho hi\n".toList).1.Others,
      hasStyling l = false ∧ tabsExpanded l = l) ∧
    (parseShellConfig ".zshrc".toList (stripStyling (formatShellConfig (parseShellConfig ".zshrc".toList
        "export B=2\nalias g=git\n# note\nexport A=1\necho hi\n".toList).1))
      = (reclassified (parseShellConfig ".zshrc".toList
        "export B=2\nalias g=git\n# note\nexport A=1\necho hi\n".toList).1, none) ∧
    plainLines (formatShellConfig (parseShellConfig ".zshrc".toList
        (stripStyling (formatShellConfig (parseShellConfig ".zshrc".toList
        "export B=2\nalias g=git\n# note\nexport A=1\necho hi\n".toList).1))).1)
      = layout (reclassified (parseShellConfig ".zshrc".toList
        "export B=2\nalias g=git\n# note\nexport A=1\necho hi\n".toList).1) ∧
    stripStyling (formatShellConfig (parseShellConfig ".zshrc".toList
        (stripStyling (formatShellConfig (parseShellConfig ".zshrc".toList
        "export B=2\nalias g=git\n# note\nexport A=1\necho hi\n".toList).1))).1)
      ≠ stripStyling (formatShellConfig (parseShellConfig ".zshrc".toList
        "export B=2\nalias g=git\n# note\nexport A=1\necho hi\n".toList).1)) :=
  ⟨by decide, reformat _ _ (by decide)⟩

set_option maxRecDepth 100000 in
/-- C6, as stated, fails on the empty file: the first plain-text output is the four headers; read
again, without error, they are four comments, and the second output has eight lines. -/
theorem reformat_not_idempotent :
    (parseShellConfig ".bashrc".toList []).2 = none ∧
    (parseShellConfig ".bashrc".toList
        (stripStyling (formatShellConfig (parseShellConfig ".bashrc".toList []).1))).2 = none ∧
    stripStyling (formatShellConfig (parseShellConfig ".bashrc".toList
        (stripStyling (formatShellConfig (parseShellConfig ".bashrc".toList []).1))).1)
      ≠ stripStyling (formatShellConfig (parseShellConfig ".bashrc".toList []).1) ∧
    plainLines (formatShellConfig (parseShellConfig ".bashrc".toList []).1)
      = ["# Comments".toList, "# Exports".toList, "# Aliases".toList, "# Functions".toList] ∧
    plainLines (formatShellConfig (parseShellConfig ".bashrc".toList
        (stripStyling (formatShellConfig (parseShellConfig ".bashrc".toList []).1))).1)
      = ["# Comments".toList, "# Comments".toList, "# Exports".toList, "# Aliases".toList,
         "# Functions".toList, "# Exports".toList, "# Aliases".toList,
         "# Functions".toList] := by
  decide

end Kole
